import Mathlib

/-!
Verification of the range-update range-sum segment tree implemented in
`src/data_structures/segment_tree_sum.rs`.

Embedding conventions:
* `i32` values are modelled as unbounded `Int`; every operation of the source
  is a plain addition or multiplication, so every identity proved here is
  preserved by the quotient onto 32-bit wrap-around arithmetic.
* The Rust struct stores `arr`/`mark` as `Vec<i32>` of capacity
  `calculate_length(len)`.  They are modelled as total maps `Nat → Int`
  together with a `cap` field recording the allocated capacity; the theorem
  for the capacity claim shows every position touched by the recursive
  addressing scheme is below `cap`.
* The recursive helpers of the source are compiled to structurally recursive
  functions on an explicit `fuel : Nat` bound on the recursion depth, so that
  the kernel can evaluate them on concrete inputs.  The exported wrappers
  (`update`, `query`, `from_vec`, ...) instantiate the fuel with a bound that
  is proved sufficient (`cr - cl` strictly decreases at every recursive call).
  The `while` loop of `calculate_length` is likewise modelled with fuel,
  returning `none` when the fuel is exhausted — this models the fact that the
  source loop diverges for `n = 0`.
-/

namespace SegTreeSum

/-- The `RangeSumSegmentTree` struct of the source: logical length, the two
parallel arrays (node sums and lazy marks) modelled as total maps, and the
capacity with which both vectors are allocated. -/
structure RangeSumSegmentTree where
  len : Nat
  cap : Nat
  arr : Nat → Int
  mark : Nat → Int

/-- Pointwise store update, modelling `v[i] = x` on a vector. -/
def setf (f : Nat → Int) (i : Nat) (v : Int) : Nat → Int :=
  fun j => if j = i then v else f j

/-- `push_down` from the source, written as the same sequence of five
assignments:
`mark[2p] += mark[p]; mark[2p+1] += mark[p];`
`arr[2p] += mark[p]*((length+1)/2); arr[2p+1] += mark[p]*(length/2);`
`mark[p] = 0`. -/
def push_down (t : RangeSumSegmentTree) (p : Nat) (length : Int) :
    RangeSumSegmentTree :=
  let t1 := { t with mark := setf t.mark (p * 2) (t.mark (p * 2) + t.mark p) }
  let t2 := { t1 with
    mark := setf t1.mark (p * 2 + 1) (t1.mark (p * 2 + 1) + t1.mark p) }
  let t3 := { t2 with
    arr := setf t2.arr (p * 2) (t2.arr (p * 2) + t2.mark p * ((length + 1) / 2)) }
  let t4 := { t3 with
    arr := setf t3.arr (p * 2 + 1) (t3.arr (p * 2 + 1) + t3.mark p * (length / 2)) }
  { t4 with mark := setf t4.mark p 0 }

/-- `update_rec` from the source.  The extra `fuel` argument bounds the
recursion depth; the `fuel = 0` fallback in the partial-overlap branch is
unreachable whenever `cr - cl ≤ fuel` (proved below), because the range is
halved at every recursive call. -/
def update_go : Nat → RangeSumSegmentTree → Nat → Nat → Nat → Nat → Nat → Int →
    RangeSumSegmentTree
  | 0, t, l, r, cl, cr, p, diff =>
    if cl > r ∨ cr < l then t
    else if cl ≥ l ∧ cr ≤ r then
      let t1 := { t with
        arr := setf t.arr p (t.arr p + diff * ((cr - cl + 1 : Nat) : Int)) }
      if l < r then
        { t1 with mark := setf t1.mark p (t1.mark p + diff) }
      else t1
    else t
  | fuel + 1, t, l, r, cl, cr, p, diff =>
    if cl > r ∨ cr < l then t
    else if cl ≥ l ∧ cr ≤ r then
      let t1 := { t with
        arr := setf t.arr p (t.arr p + diff * ((cr - cl + 1 : Nat) : Int)) }
      if l < r then
        { t1 with mark := setf t1.mark p (t1.mark p + diff) }
      else t1
    else
      let t1 := push_down t p ((cr - cl + 1 : Nat) : Int)
      let mid := cl + (cr - cl) / 2
      let t2 := update_go fuel t1 l r cl mid (p * 2) diff
      let t3 := update_go fuel t2 l r (mid + 1) cr (p * 2 + 1) diff
      { t3 with arr := setf t3.arr p (t3.arr (p * 2) + t3.arr (p * 2 + 1)) }

/-- `update(i, j, diff)` from the source: `update_rec(i, j, 1, self.len, 1, diff)`. -/
def update (t : RangeSumSegmentTree) (i j : Nat) (diff : Int) :
    RangeSumSegmentTree :=
  update_go t.len t i j 1 t.len 1 diff

/-- `query_rec` from the source, returning the computed sum together with the
mutated tree (the Rust function takes `&mut self`). -/
def query_go : Nat → RangeSumSegmentTree → Nat → Nat → Nat → Nat → Nat →
    Int × RangeSumSegmentTree
  | 0, t, l, r, cl, cr, p =>
    if cl > r ∨ cr < l then (0, t)
    else if cl ≥ l ∧ cr ≤ r then (t.arr p, t)
    else (0, t)
  | fuel + 1, t, l, r, cl, cr, p =>
    if cl > r ∨ cr < l then (0, t)
    else if cl ≥ l ∧ cr ≤ r then (t.arr p, t)
    else
      let t1 := push_down t p ((cr - cl + 1 : Nat) : Int)
      let mid := cl + (cr - cl) / 2
      let s1 := query_go fuel t1 l r cl mid (p * 2)
      let s2 := query_go fuel s1.2 l r (mid + 1) cr (p * 2 + 1)
      (s1.1 + s2.1, s2.2)

/-- `query(i, j)` from the source: `query_rec(i, j, 1, self.len, 1)`. -/
def query (t : RangeSumSegmentTree) (i j : Nat) : Int × RangeSumSegmentTree :=
  query_go t.len t i j 1 t.len 1

/-- `build_rec` from the source (fuelled like `update_go`). -/
def build_go : Nat → RangeSumSegmentTree → List Int → Nat → Nat → Nat →
    RangeSumSegmentTree
  | 0, t, values, left, right, p =>
    if left = right then
      { t with arr := setf t.arr p (values.getD (left - 1) 0) }
    else t
  | fuel + 1, t, values, left, right, p =>
    if left = right then
      { t with arr := setf t.arr p (values.getD (left - 1) 0) }
    else
      let mid := left + (right - left) / 2
      let t1 := build_go fuel t values left mid (p * 2)
      let t2 := build_go fuel t1 values (mid + 1) right (p * 2 + 1)
      { t2 with arr := setf t2.arr p (t2.arr (p * 2) + t2.arr (p * 2 + 1)) }

/-- The `while cur != 1 { cur = (cur + 1) / 2; h += 1 }` loop of
`calculate_length`, with fuel: `none` models non-termination of the source
loop (which happens exactly for `cur = 0`). -/
def calcLoopGo : Nat → Nat → Nat → Option Nat
  | 0, _, _ => none
  | fuel + 1, cur, h => if cur = 1 then some h else calcLoopGo fuel ((cur + 1) / 2) (h + 1)

/-- `calculate_length(n)` from the source: run the loop from `cur = n`,
`h = 1` and return `2^h`.  Fuel `n + 1` is sufficient for every `n ≥ 1`
because `cur` strictly decreases. -/
def calculate_length (n : Nat) : Nat :=
  2 ^ ((calcLoopGo (n + 1) n 1).getD 1)

/-- `from_vec` from the source: allocate both vectors with capacity
`calculate_length n` (all entries zero) and run `build_rec(values, 1, n, 1)`. -/
def from_vec (values : List Int) : RangeSumSegmentTree :=
  let n := values.length
  let length := calculate_length n
  build_go n
    { len := n, cap := length, arr := fun _ => 0, mark := fun _ => 0 }
    values 1 n 1

/-! ### Semantic artefacts (abstraction function, invariant, decomposition) -/

/-- Fuelled computation of the list of logical element values stored below
node `p` covering `[cl, cr]`: a leaf contributes its `arr` entry, an inner
node contributes the values below its children shifted by the node's own
pending mark (its mark has been applied to its own aggregate but not yet to
the children). -/
def elemsGo : Nat → RangeSumSegmentTree → Nat → Nat → Nat → List Int
  | 0, t, cl, cr, p => if cr ≤ cl then [t.arr p] else []
  | fuel + 1, t, cl, cr, p =>
    if cr ≤ cl then [t.arr p]
    else
      let mid := cl + (cr - cl) / 2
      ((elemsGo fuel t cl mid (p * 2)) ++
        (elemsGo fuel t (mid + 1) cr (p * 2 + 1))).map (fun x => x + t.mark p)

/-- The logical contents of the subtree rooted at `p` covering `[cl, cr]`. -/
def elems (t : RangeSumSegmentTree) (cl cr p : Nat) : List Int :=
  elemsGo (cr - cl) t cl cr p

/-- Fuelled coherence invariant: at every inner node of the decomposition,
the stored aggregate equals the children's aggregates plus the node's not yet
propagated mark times the range size. -/
def invGo : Nat → RangeSumSegmentTree → Nat → Nat → Nat → Prop
  | 0, _, _, _, _ => True
  | fuel + 1, t, cl, cr, p =>
    if cr ≤ cl then True
    else
      let mid := cl + (cr - cl) / 2
      t.arr p = t.arr (p * 2) + t.arr (p * 2 + 1) +
          t.mark p * ((cr - cl + 1 : Nat) : Int)
        ∧ invGo fuel t cl mid (p * 2) ∧ invGo fuel t (mid + 1) cr (p * 2 + 1)

/-- Coherence invariant of the subtree rooted at `p` covering `[cl, cr]`. -/
def inv (t : RangeSumSegmentTree) (cl cr p : Nat) : Prop :=
  invGo (cr - cl) t cl cr p

/-- `q` lies in the (index-arithmetic) subtree rooted at position `p`. -/
def inSub (p q : Nat) : Prop :=
  ∃ d, p * 2 ^ d ≤ q ∧ q < (p + 1) * 2 ^ d

/-- Fuelled list of the nodes `(position, cl, cr)` of the decomposition of
`[cl, cr]` rooted at position `p`, following the same `mid` split as the
source recursion. -/
def nodesGo : Nat → Nat → Nat → Nat → List (Nat × Nat × Nat)
  | 0, cl, cr, p => if cr ≤ cl then [(p, cl, cr)] else []
  | fuel + 1, cl, cr, p =>
    if cr ≤ cl then [(p, cl, cr)]
    else
      let mid := cl + (cr - cl) / 2
      (p, cl, cr) :: (nodesGo fuel cl mid (p * 2) ++
        nodesGo fuel (mid + 1) cr (p * 2 + 1))

/-- The nodes of the decomposition of `[cl, cr]` rooted at `p`. -/
def nodesList (cl cr p : Nat) : List (Nat × Nat × Nat) :=
  nodesGo (cr - cl) cl cr p

/-- Fuelled chain of proper ancestors `p/2, p/4, ..., 1` of a position. -/
def ancestorsGo : Nat → Nat → List Nat
  | 0, _ => []
  | fuel + 1, p => if p ≤ 1 then [] else (p / 2) :: ancestorsGo fuel (p / 2)

/-- The proper ancestors of position `p` (down to the root `1`). -/
def ancestors (p : Nat) : List Nat :=
  ancestorsGo p p

/-- Sum of the entries of `xs` whose logical index lies in `[l, r]`, where the
head of `xs` carries index `cl`. -/
def sumIn (l r cl : Nat) : List Int → Int
  | [] => 0
  | x :: xs => (if l ≤ cl ∧ cl ≤ r then x else 0) + sumIn l r (cl + 1) xs

/-- Add `d` to the entries of `xs` whose logical index lies in `[l, r]`, where
the head of `xs` carries index `cl`. -/
def addOn (l r : Nat) (d : Int) (cl : Nat) : List Int → List Int
  | [] => []
  | x :: xs => (if l ≤ cl ∧ cl ≤ r then x + d else x) :: addOn l r d (cl + 1) xs

/-- States reachable from `from_vec v` by `update`/`query` calls whose
arguments satisfy the documented contract `1 ≤ i ≤ j ≤ len`. -/
inductive Reachable (v : List Int) : RangeSumSegmentTree → Prop where
  | base : Reachable v (from_vec v)
  | update_step {t : RangeSumSegmentTree} (i j : Nat) (d : Int) :
      Reachable v t → 1 ≤ i → i ≤ j → j ≤ t.len → Reachable v (update t i j d)
  | query_step {t : RangeSumSegmentTree} (i j : Nat) :
      Reachable v t → 1 ≤ i → i ≤ j → j ≤ t.len → Reachable v (query t i j).2

/-! ### Basic store lemmas -/

theorem setf_same (f : Nat → Int) (i : Nat) (v : Int) : setf f i v i = v := by
  simp [setf]

theorem setf_other (f : Nat → Int) {i j : Nat} (v : Int) (h : j ≠ i) :
    setf f i v j = f j := by
  simp [setf, h]

/-! ### push_down: computed effect and frame -/

theorem push_down_mark_left (t : RangeSumSegmentTree) (p : Nat) (L : Int)
    (hp : 1 ≤ p) :
    (push_down t p L).mark (p * 2) = t.mark (p * 2) + t.mark p := by
  have h1 : ¬(p * 2 = p) := by omega
  have h2 : ¬(p * 2 = p * 2 + 1) := by omega
  simp [push_down, setf, h1, h2]

theorem push_down_mark_right (t : RangeSumSegmentTree) (p : Nat) (L : Int)
    (hp : 1 ≤ p) :
    (push_down t p L).mark (p * 2 + 1) = t.mark (p * 2 + 1) + t.mark p := by
  have h1 : ¬(p * 2 + 1 = p) := by omega
  have h2 : ¬(p * 2 + 1 = p * 2) := by omega
  have h3 : ¬(p = p * 2) := by omega
  simp [push_down, setf, h1, h2, h3]

theorem push_down_arr_left (t : RangeSumSegmentTree) (p : Nat) (L : Int)
    (hp : 1 ≤ p) :
    (push_down t p L).arr (p * 2) = t.arr (p * 2) + t.mark p * ((L + 1) / 2) := by
  have h1 : ¬(p * 2 = p * 2 + 1) := by omega
  have h2 : ¬(p = p * 2) := by omega
  have h3 : ¬(p = p * 2 + 1) := by omega
  simp [push_down, setf, h1, h2, h3]

theorem push_down_arr_right (t : RangeSumSegmentTree) (p : Nat) (L : Int)
    (hp : 1 ≤ p) :
    (push_down t p L).arr (p * 2 + 1) = t.arr (p * 2 + 1) + t.mark p * (L / 2) := by
  have h1 : ¬(p * 2 + 1 = p * 2) := by omega
  have h2 : ¬(p = p * 2) := by omega
  have h3 : ¬(p = p * 2 + 1) := by omega
  simp [push_down, setf, h1, h2, h3]

theorem push_down_mark_self (t : RangeSumSegmentTree) (p : Nat) (L : Int) :
    (push_down t p L).mark p = 0 := by
  simp [push_down, setf]

theorem push_down_arr_self (t : RangeSumSegmentTree) (p : Nat) (L : Int)
    (hp : 1 ≤ p) : (push_down t p L).arr p = t.arr p := by
  have h1 : ¬(p = p * 2) := by omega
  have h2 : ¬(p = p * 2 + 1) := by omega
  simp [push_down, setf, h1, h2]

theorem push_down_arr_frame (t : RangeSumSegmentTree) (p : Nat) (L : Int)
    {q : Nat} (h2 : q ≠ p * 2) (h3 : q ≠ p * 2 + 1) :
    (push_down t p L).arr q = t.arr q := by
  simp [push_down, setf, h2, h3]

theorem push_down_mark_frame (t : RangeSumSegmentTree) (p : Nat) (L : Int)
    {q : Nat} (h1 : q ≠ p) (h2 : q ≠ p * 2) (h3 : q ≠ p * 2 + 1) :
    (push_down t p L).mark q = t.mark q := by
  simp [push_down, setf, h1, h2, h3]

theorem push_down_len (t : RangeSumSegmentTree) (p : Nat) (L : Int) :
    (push_down t p L).len = t.len := rfl

theorem push_down_cap (t : RangeSumSegmentTree) (p : Nat) (L : Int) :
    (push_down t p L).cap = t.cap := rfl

/-! ### The operations only modify `arr` and `mark` -/

theorem update_go_shape (fuel : Nat) :
    ∀ (t : RangeSumSegmentTree) (l r cl cr p : Nat) (d : Int),
      (update_go fuel t l r cl cr p d).len = t.len ∧
      (update_go fuel t l r cl cr p d).cap = t.cap := by
  induction fuel with
  | zero =>
    intro t l r cl cr p d
    rw [update_go]
    split
    · exact ⟨rfl, rfl⟩
    · split
      · split <;> exact ⟨rfl, rfl⟩
      · exact ⟨rfl, rfl⟩
  | succ fuel ih =>
    intro t l r cl cr p d
    rw [update_go]
    split
    · exact ⟨rfl, rfl⟩
    · split
      · split <;> exact ⟨rfl, rfl⟩
      · simp only []
        constructor
        · show (update_go fuel _ _ _ _ _ _ _).len = _
          rw [(ih _ _ _ _ _ _ _).1, (ih _ _ _ _ _ _ _).1, push_down_len]
        · show (update_go fuel _ _ _ _ _ _ _).cap = _
          rw [(ih _ _ _ _ _ _ _).2, (ih _ _ _ _ _ _ _).2, push_down_cap]

theorem query_go_shape (fuel : Nat) :
    ∀ (t : RangeSumSegmentTree) (l r cl cr p : Nat),
      (query_go fuel t l r cl cr p).2.len = t.len ∧
      (query_go fuel t l r cl cr p).2.cap = t.cap := by
  induction fuel with
  | zero =>
    intro t l r cl cr p
    rw [query_go]
    split
    · exact ⟨rfl, rfl⟩
    · split <;> exact ⟨rfl, rfl⟩
  | succ fuel ih =>
    intro t l r cl cr p
    rw [query_go]
    split
    · exact ⟨rfl, rfl⟩
    · split
      · exact ⟨rfl, rfl⟩
      · simp only []
        constructor
        · show (query_go fuel _ _ _ _ _ _).2.len = _
          rw [(ih _ _ _ _ _ _).1, (ih _ _ _ _ _ _).1, push_down_len]
        · show (query_go fuel _ _ _ _ _ _).2.cap = _
          rw [(ih _ _ _ _ _ _).2, (ih _ _ _ _ _ _).2, push_down_cap]

theorem build_go_shape (fuel : Nat) :
    ∀ (t : RangeSumSegmentTree) (v : List Int) (left right p : Nat),
      (build_go fuel t v left right p).len = t.len ∧
      (build_go fuel t v left right p).cap = t.cap := by
  induction fuel with
  | zero =>
    intro t v left right p
    rw [build_go]
    split <;> exact ⟨rfl, rfl⟩
  | succ fuel ih =>
    intro t v left right p
    rw [build_go]
    split
    · exact ⟨rfl, rfl⟩
    · simp only []
      constructor
      · show (build_go fuel _ _ _ _ _).len = _
        rw [(ih _ _ _ _ _).1, (ih _ _ _ _ _).1]
      · show (build_go fuel _ _ _ _ _).cap = _
        rw [(ih _ _ _ _ _).2, (ih _ _ _ _ _).2]

/-- `build_rec` never writes to the `mark` array. -/
theorem build_go_mark (fuel : Nat) :
    ∀ (t : RangeSumSegmentTree) (v : List Int) (left right p : Nat),
      (build_go fuel t v left right p).mark = t.mark := by
  induction fuel with
  | zero =>
    intro t v left right p
    rw [build_go]
    split <;> rfl
  | succ fuel ih =>
    intro t v left right p
    rw [build_go]
    split
    · rfl
    · simp only []
      show (build_go fuel _ _ _ _ _).mark = _
      rw [ih, ih]

/-! ### Subtree index arithmetic -/

theorem inSub_self (p : Nat) : inSub p p :=
  ⟨0, by simp⟩

theorem inSub_le {p q : Nat} (h : inSub p q) : p ≤ q := by
  obtain ⟨d, h1, h2⟩ := h
  have hd : 1 ≤ 2 ^ d := Nat.one_le_two_pow
  have : p * 1 ≤ p * 2 ^ d := Nat.mul_le_mul_left p hd
  omega

theorem not_inSub_of_lt {p q : Nat} (h : q < p) : ¬ inSub p q :=
  fun hs => absurd (inSub_le hs) (by omega)

theorem inSub_child_left (p : Nat) : inSub p (p * 2) := by
  refine ⟨1, by simp [pow_one], ?_⟩
  simp only [pow_one]
  omega

theorem inSub_child_right (p : Nat) : inSub p (p * 2 + 1) := by
  refine ⟨1, by simp [pow_one], ?_⟩
  simp only [pow_one]
  omega

theorem inSub_left {p q : Nat} (h : inSub (p * 2) q) : inSub p q := by
  obtain ⟨d, h1, h2⟩ := h
  refine ⟨d + 1, ?_, ?_⟩
  · have e : p * 2 ^ (d + 1) = p * 2 * 2 ^ d := by ring
    rw [e]; exact h1
  · have e : (p + 1) * 2 ^ (d + 1) = (p * 2 + 2) * 2 ^ d := by ring
    have h3 : (p * 2 + 1) * 2 ^ d ≤ (p * 2 + 2) * 2 ^ d :=
      Nat.mul_le_mul_right _ (by omega)
    rw [e]; exact lt_of_lt_of_le h2 h3

theorem inSub_right {p q : Nat} (h : inSub (p * 2 + 1) q) : inSub p q := by
  obtain ⟨d, h1, h2⟩ := h
  refine ⟨d + 1, ?_, ?_⟩
  · have e : p * 2 ^ (d + 1) = p * 2 * 2 ^ d := by ring
    have h3 : p * 2 * 2 ^ d ≤ (p * 2 + 1) * 2 ^ d :=
      Nat.mul_le_mul_right _ (by omega)
    rw [e]; exact le_trans h3 h1
  · have e : (p + 1) * 2 ^ (d + 1) = (p * 2 + 1 + 1) * 2 ^ d := by ring
    rw [e]; exact h2

theorem inSub_disjoint {p q : Nat} (hp : 1 ≤ p)
    (h1 : inSub (p * 2) q) (h2 : inSub (p * 2 + 1) q) : False := by
  obtain ⟨a, ha1, ha2⟩ := h1
  obtain ⟨b, hb1, hb2⟩ := h2
  rcases Nat.le_total a b with hab | hba
  · have e1 : 2 ^ a ≤ 2 ^ b := Nat.pow_le_pow_right (by omega) hab
    have e2 : (p * 2 + 1) * 2 ^ a ≤ (p * 2 + 1) * 2 ^ b :=
      Nat.mul_le_mul_left _ e1
    exact absurd (lt_of_lt_of_le ha2 (le_trans e2 hb1)) (lt_irrefl q)
  · rcases Nat.lt_or_ge b a with hba2 | hab2
    · have e1 : 2 ^ (b + 1) ≤ 2 ^ a := Nat.pow_le_pow_right (by omega) (by omega)
      have key : q < q := by
        calc q < (p * 2 + 1 + 1) * 2 ^ b := hb2
          _ ≤ p * 4 * 2 ^ b := Nat.mul_le_mul_right _ (by omega)
          _ = p * 2 * 2 ^ (b + 1) := by ring
          _ ≤ p * 2 * 2 ^ a := Nat.mul_le_mul_left _ e1
          _ ≤ q := ha1
      exact absurd key (lt_irrefl q)
    · have hab : a = b := by omega
      subst hab
      have : (p * 2 + 1) * 2 ^ a ≤ q := hb1
      exact absurd (lt_of_lt_of_le ha2 this) (lt_irrefl q)

theorem not_inSub_sibling_right {p : Nat} (hp : 1 ≤ p) :
    ¬ inSub (p * 2) (p * 2 + 1) := by
  rintro ⟨d, h1, h2⟩
  match d with
  | 0 => simp at h2
  | d + 1 =>
    have e1 : 2 ^ 1 ≤ 2 ^ (d + 1) := Nat.pow_le_pow_right (by omega) (by omega)
    have e2 : p * 2 * 2 ≤ p * 2 * 2 ^ (d + 1) :=
      Nat.mul_le_mul_left _ (by simpa using e1)
    omega

theorem not_inSub_sibling_left {p : Nat} :
    ¬ inSub (p * 2 + 1) (p * 2) := by
  intro h
  have := inSub_le h
  omega

/-! ### Lemmas about `sumIn` and `addOn` -/

theorem sumIn_zero_right (l r : Nat) :
    ∀ (xs : List Int) (c : Nat), r < c → sumIn l r c xs = 0 := by
  intro xs
  induction xs with
  | nil => intro c _; rfl
  | cons x xs ih =>
    intro c hc
    have : ¬(l ≤ c ∧ c ≤ r) := by omega
    simp [sumIn, this, ih (c + 1) (by omega)]

theorem sumIn_zero_left (l r : Nat) :
    ∀ (xs : List Int) (c : Nat), c + xs.length ≤ l → sumIn l r c xs = 0 := by
  intro xs
  induction xs with
  | nil => intro c _; rfl
  | cons x xs ih =>
    intro c hc
    simp only [List.length_cons] at hc
    have : ¬(l ≤ c ∧ c ≤ r) := by omega
    simp [sumIn, this, ih (c + 1) (by omega)]

theorem sumIn_append (l r : Nat) :
    ∀ (xs ys : List Int) (c : Nat),
      sumIn l r c (xs ++ ys) = sumIn l r c xs + sumIn l r (c + xs.length) ys := by
  intro xs
  induction xs with
  | nil => intro ys c; simp [sumIn]
  | cons x xs ih =>
    intro ys c
    simp only [List.cons_append, sumIn, List.length_cons, List.append_eq]
    rw [ih ys (c + 1)]
    have : c + (xs.length + 1) = c + 1 + xs.length := by omega
    rw [this]
    ring

theorem sumIn_full (l r : Nat) :
    ∀ (xs : List Int) (c : Nat), l ≤ c → c + xs.length ≤ r + 1 →
      sumIn l r c xs = xs.sum := by
  intro xs
  induction xs with
  | nil => intro c _ _; rfl
  | cons x xs ih =>
    intro c h1 h2
    simp only [List.length_cons] at h2
    have : l ≤ c ∧ c ≤ r := by omega
    simp [sumIn, this, ih (c + 1) (by omega) (by omega)]

theorem sumIn_getD (k : Nat) :
    ∀ (xs : List Int) (c : Nat), c ≤ k → k < c + xs.length →
      sumIn k k c xs = xs.getD (k - c) 0 := by
  intro xs
  induction xs with
  | nil => intro c _ h; simp at h; omega
  | cons x xs ih =>
    intro c h1 h2
    simp only [List.length_cons] at h2
    by_cases hc : c = k
    · subst hc
      have hcond : c ≤ c ∧ c ≤ c := ⟨le_refl c, le_refl c⟩
      simp [sumIn, hcond, sumIn_zero_right c c xs (c + 1) (by omega)]
    · have hcond : ¬(k ≤ c ∧ c ≤ k) := by omega
      have hkc : k - c = (k - (c + 1)) + 1 := by omega
      simp only [sumIn, hcond, if_false, ih (c + 1) (by omega) (by omega), hkc,
        List.getD_cons_succ]
      ring

theorem sumIn_start_zero (j : Nat) :
    ∀ (xs : List Int) (c : Nat), 1 ≤ c → sumIn 0 j c xs = sumIn 1 j c xs := by
  intro xs
  induction xs with
  | nil => intro c _; rfl
  | cons x xs ih =>
    intro c hc
    have : (0 ≤ c ∧ c ≤ j) ↔ (1 ≤ c ∧ c ≤ j) := by omega
    simp only [sumIn, this, ih (c + 1) (by omega)]

theorem addOn_length (l r : Nat) (d : Int) :
    ∀ (xs : List Int) (c : Nat), (addOn l r d c xs).length = xs.length := by
  intro xs
  induction xs with
  | nil => intro c; rfl
  | cons x xs ih => intro c; simp [addOn, ih (c + 1)]

theorem addOn_id_right (l r : Nat) (d : Int) :
    ∀ (xs : List Int) (c : Nat), r < c → addOn l r d c xs = xs := by
  intro xs
  induction xs with
  | nil => intro c _; rfl
  | cons x xs ih =>
    intro c hc
    have : ¬(l ≤ c ∧ c ≤ r) := by omega
    simp [addOn, this, ih (c + 1) (by omega)]

theorem addOn_id_left (l r : Nat) (d : Int) :
    ∀ (xs : List Int) (c : Nat), c + xs.length ≤ l → addOn l r d c xs = xs := by
  intro xs
  induction xs with
  | nil => intro c _; rfl
  | cons x xs ih =>
    intro c hc
    simp only [List.length_cons] at hc
    have : ¬(l ≤ c ∧ c ≤ r) := by omega
    simp [addOn, this, ih (c + 1) (by omega)]

theorem addOn_full (l r : Nat) (d : Int) :
    ∀ (xs : List Int) (c : Nat), l ≤ c → c + xs.length ≤ r + 1 →
      addOn l r d c xs = xs.map (fun x => x + d) := by
  intro xs
  induction xs with
  | nil => intro c _ _; rfl
  | cons x xs ih =>
    intro c h1 h2
    simp only [List.length_cons] at h2
    have : l ≤ c ∧ c ≤ r := by omega
    simp [addOn, this, ih (c + 1) (by omega) (by omega)]

theorem addOn_append (l r : Nat) (d : Int) :
    ∀ (xs ys : List Int) (c : Nat),
      addOn l r d c (xs ++ ys) = addOn l r d c xs ++ addOn l r d (c + xs.length) ys := by
  intro xs
  induction xs with
  | nil => intro ys c; simp [addOn]
  | cons x xs ih =>
    intro ys c
    simp only [List.cons_append, addOn, List.length_cons, List.append_eq]
    rw [ih ys (c + 1)]
    have : c + (xs.length + 1) = c + 1 + xs.length := by omega
    rw [this]

theorem addOn_map (l r : Nat) (d m : Int) :
    ∀ (xs : List Int) (c : Nat),
      addOn l r d c (xs.map (fun x => x + m)) =
        (addOn l r d c xs).map (fun x => x + m) := by
  intro xs
  induction xs with
  | nil => intro c; rfl
  | cons x xs ih =>
    intro c
    simp only [List.map_cons, addOn, ih (c + 1)]
    split
    · simp only [List.cons.injEq]
      exact ⟨by ring, trivial⟩
    · rfl

theorem addOn_comm (l1 r1 l2 r2 : Nat) (d1 d2 : Int) :
    ∀ (xs : List Int) (c : Nat),
      addOn l2 r2 d2 c (addOn l1 r1 d1 c xs) =
        addOn l1 r1 d1 c (addOn l2 r2 d2 c xs) := by
  intro xs
  induction xs with
  | nil => intro c; rfl
  | cons x xs ih =>
    intro c
    simp only [addOn, ih (c + 1)]
    split <;> split <;> simp [addOn] <;> ring

theorem sumIn_addOn_pt (l r : Nat) (d : Int) (k : Nat) :
    ∀ (xs : List Int) (c : Nat), c ≤ k → k < c + xs.length →
      sumIn k k c (addOn l r d c xs) =
        sumIn k k c xs + (if l ≤ k ∧ k ≤ r then d else 0) := by
  intro xs
  induction xs with
  | nil => intro c _ h; simp at h; omega
  | cons x xs ih =>
    intro c h1 h2
    simp only [List.length_cons] at h2
    by_cases hc : c = k
    · subst hc
      have hcond : c ≤ c ∧ c ≤ c := ⟨le_refl c, le_refl c⟩
      have hz1 : sumIn c c (c + 1) (addOn l r d (c + 1) xs) = 0 :=
        sumIn_zero_right c c _ (c + 1) (by omega)
      have hz2 : sumIn c c (c + 1) xs = 0 :=
        sumIn_zero_right c c xs (c + 1) (by omega)
      simp only [addOn, sumIn, hz1, hz2, hcond, if_true, and_self]
      split <;> simp <;> ring
    · have hcond : ¬(k ≤ c ∧ c ≤ k) := by omega
      have hrec := ih (c + 1) (by omega) (by omega)
      simp only [addOn, sumIn, hcond, if_false, hrec]
      split <;> ring

theorem sum_map_add (m : Int) :
    ∀ (xs : List Int), (xs.map (fun x => x + m)).sum = xs.sum + m * xs.length := by
  intro xs
  induction xs with
  | nil => simp
  | cons x xs ih =>
    simp only [List.map_cons, List.sum_cons, ih, List.length_cons]
    push_cast
    ring

theorem map_add_zero (xs : List Int) : xs.map (fun x => x + 0) = xs := by
  simp

/-! ### Fuel irrelevance and unfolding for `elems`, `inv`, `nodesList` -/

theorem elemsGo_leaf (fuel : Nat) (t : RangeSumSegmentTree) (cl cr p : Nat)
    (h : cr ≤ cl) : elemsGo fuel t cl cr p = [t.arr p] := by
  cases fuel <;> simp [elemsGo, h]

theorem elemsGo_congr (t : RangeSumSegmentTree) :
    ∀ (f g cl cr p : Nat), cr - cl ≤ f → cr - cl ≤ g →
      elemsGo f t cl cr p = elemsGo g t cl cr p := by
  intro f
  induction f with
  | zero =>
    intro g cl cr p h1 h2
    rw [elemsGo_leaf 0 t cl cr p (by omega), elemsGo_leaf g t cl cr p (by omega)]
  | succ f ih =>
    intro g cl cr p h1 h2
    by_cases hcr : cr ≤ cl
    · rw [elemsGo_leaf _ t cl cr p hcr, elemsGo_leaf _ t cl cr p hcr]
    · cases g with
      | zero => omega
      | succ g =>
        rw [elemsGo, elemsGo]
        simp only [if_neg hcr]
        rw [ih g cl (cl + (cr - cl) / 2) (p * 2) (by omega) (by omega),
          ih g (cl + (cr - cl) / 2 + 1) cr (p * 2 + 1) (by omega) (by omega)]

theorem elems_leaf (t : RangeSumSegmentTree) {cl cr : Nat} (p : Nat)
    (h : cr ≤ cl) : elems t cl cr p = [t.arr p] :=
  elemsGo_leaf _ t cl cr p h

theorem elems_node (t : RangeSumSegmentTree) {cl cr : Nat} (p : Nat)
    (h : cl < cr) :
    elems t cl cr p =
      ((elems t cl (cl + (cr - cl) / 2) (p * 2)) ++
        (elems t (cl + (cr - cl) / 2 + 1) cr (p * 2 + 1))).map
          (fun x => x + t.mark p) := by
  have hcr : ¬ cr ≤ cl := by omega
  rw [elems, elemsGo_congr t (cr - cl) ((cr - cl - 1) + 1) cl cr p (le_refl _)
    (by omega), elemsGo]
  simp only [if_neg hcr]
  rw [elemsGo_congr t (cr - cl - 1) (cl + (cr - cl) / 2 - cl) cl
      (cl + (cr - cl) / 2) (p * 2) (by omega) (by omega),
    elemsGo_congr t (cr - cl - 1) (cr - (cl + (cr - cl) / 2 + 1))
      (cl + (cr - cl) / 2 + 1) cr (p * 2 + 1) (by omega) (by omega)]
  rfl

theorem invGo_leaf (fuel : Nat) (t : RangeSumSegmentTree) (cl cr p : Nat)
    (h : cr ≤ cl) : invGo fuel t cl cr p := by
  cases fuel <;> simp [invGo, h]

theorem invGo_congr (t : RangeSumSegmentTree) :
    ∀ (f g cl cr p : Nat), cr - cl ≤ f → cr - cl ≤ g →
      (invGo f t cl cr p ↔ invGo g t cl cr p) := by
  intro f
  induction f with
  | zero =>
    intro g cl cr p h1 h2
    have hcr : cr ≤ cl := by omega
    exact iff_of_true (invGo_leaf 0 t cl cr p hcr) (invGo_leaf g t cl cr p hcr)
  | succ f ih =>
    intro g cl cr p h1 h2
    by_cases hcr : cr ≤ cl
    · exact iff_of_true (invGo_leaf _ t cl cr p hcr) (invGo_leaf g t cl cr p hcr)
    · cases g with
      | zero => omega
      | succ g =>
        rw [invGo, invGo]
        simp only [if_neg hcr]
        exact and_congr Iff.rfl (and_congr
          (ih g cl (cl + (cr - cl) / 2) (p * 2) (by omega) (by omega))
          (ih g (cl + (cr - cl) / 2 + 1) cr (p * 2 + 1) (by omega) (by omega)))

theorem inv_leaf (t : RangeSumSegmentTree) {cl cr : Nat} (p : Nat)
    (h : cr ≤ cl) : inv t cl cr p :=
  invGo_leaf _ t cl cr p h

theorem inv_node (t : RangeSumSegmentTree) {cl cr : Nat} (p : Nat)
    (h : cl < cr) :
    inv t cl cr p ↔
      (t.arr p = t.arr (p * 2) + t.arr (p * 2 + 1) +
          t.mark p * ((cr - cl + 1 : Nat) : Int)
        ∧ inv t cl (cl + (cr - cl) / 2) (p * 2)
        ∧ inv t (cl + (cr - cl) / 2 + 1) cr (p * 2 + 1)) := by
  have hcr : ¬ cr ≤ cl := by omega
  rw [inv, invGo_congr t (cr - cl) ((cr - cl - 1) + 1) cl cr p (le_refl _)
    (by omega), invGo]
  simp only [if_neg hcr]
  exact and_congr Iff.rfl (and_congr
    (invGo_congr t (cr - cl - 1) (cl + (cr - cl) / 2 - cl) cl
      (cl + (cr - cl) / 2) (p * 2) (by omega) (by omega))
    (invGo_congr t (cr - cl - 1) (cr - (cl + (cr - cl) / 2 + 1))
      (cl + (cr - cl) / 2 + 1) cr (p * 2 + 1) (by omega) (by omega)))

theorem nodesGo_leaf (fuel : Nat) (cl cr p : Nat) (h : cr ≤ cl) :
    nodesGo fuel cl cr p = [(p, cl, cr)] := by
  cases fuel <;> simp [nodesGo, h]

theorem nodesGo_congr :
    ∀ (f g cl cr p : Nat), cr - cl ≤ f → cr - cl ≤ g →
      nodesGo f cl cr p = nodesGo g cl cr p := by
  intro f
  induction f with
  | zero =>
    intro g cl cr p h1 h2
    have hcr : cr ≤ cl := by omega
    rw [nodesGo_leaf 0 cl cr p hcr, nodesGo_leaf g cl cr p hcr]
  | succ f ih =>
    intro g cl cr p h1 h2
    by_cases hcr : cr ≤ cl
    · rw [nodesGo_leaf _ cl cr p hcr, nodesGo_leaf g cl cr p hcr]
    · cases g with
      | zero => omega
      | succ g =>
        rw [nodesGo, nodesGo]
        simp only [if_neg hcr]
        rw [ih g cl (cl + (cr - cl) / 2) (p * 2) (by omega) (by omega),
          ih g (cl + (cr - cl) / 2 + 1) cr (p * 2 + 1) (by omega) (by omega)]

theorem nodes_leaf {cl cr : Nat} (p : Nat) (h : cr ≤ cl) :
    nodesList cl cr p = [(p, cl, cr)] :=
  nodesGo_leaf _ cl cr p h

theorem nodes_node {cl cr : Nat} (p : Nat) (h : cl < cr) :
    nodesList cl cr p =
      (p, cl, cr) :: (nodesList cl (cl + (cr - cl) / 2) (p * 2) ++
        nodesList (cl + (cr - cl) / 2 + 1) cr (p * 2 + 1)) := by
  have hcr : ¬ cr ≤ cl := by omega
  rw [nodesList, nodesGo_congr (cr - cl) ((cr - cl - 1) + 1) cl cr p (le_refl _)
    (by omega), nodesGo]
  simp only [if_neg hcr]
  rw [nodesGo_congr (cr - cl - 1) (cl + (cr - cl) / 2 - cl) cl
      (cl + (cr - cl) / 2) (p * 2) (by omega) (by omega),
    nodesGo_congr (cr - cl - 1) (cr - (cl + (cr - cl) / 2 + 1))
      (cl + (cr - cl) / 2 + 1) cr (p * 2 + 1) (by omega) (by omega)]
  rfl

/-! ### Length of `elems`, frame congruence, and the aggregate-sum lemma -/

theorem elems_length (t : RangeSumSegmentTree) :
    ∀ (fuel cl cr p : Nat), cr - cl ≤ fuel → cl ≤ cr →
      (elems t cl cr p).length = cr + 1 - cl := by
  intro fuel
  induction fuel with
  | zero =>
    intro cl cr p h1 h2
    rw [elems_leaf t p (by omega)]
    simp
    omega
  | succ fuel ih =>
    intro cl cr p h1 h2
    by_cases hcr : cr ≤ cl
    · rw [elems_leaf t p hcr]
      simp
      omega
    · have e1 := ih cl (cl + (cr - cl) / 2) (p * 2) (by omega) (by omega)
      have e2 := ih (cl + (cr - cl) / 2 + 1) cr (p * 2 + 1) (by omega) (by omega)
      rw [elems_node t p (by omega)]
      simp only [List.length_map, List.length_append, e1, e2]
      omega

theorem elems_length_of_le (t : RangeSumSegmentTree) {cl cr : Nat} (p : Nat)
    (h : cl ≤ cr) : (elems t cl cr p).length = cr + 1 - cl :=
  elems_length t (cr - cl) cl cr p (le_refl _) h

theorem elems_agree (t1 t2 : RangeSumSegmentTree) :
    ∀ (fuel cl cr p : Nat), cr - cl ≤ fuel →
      (∀ q, inSub p q → t2.arr q = t1.arr q ∧ t2.mark q = t1.mark q) →
      elems t2 cl cr p = elems t1 cl cr p := by
  intro fuel
  induction fuel with
  | zero =>
    intro cl cr p h1 h
    rw [elems_leaf t1 p (by omega), elems_leaf t2 p (by omega),
      (h p (inSub_self p)).1]
  | succ fuel ih =>
    intro cl cr p h1 h
    by_cases hcr : cr ≤ cl
    · rw [elems_leaf t1 p hcr, elems_leaf t2 p hcr, (h p (inSub_self p)).1]
    · rw [elems_node t1 p (by omega), elems_node t2 p (by omega),
        ih cl (cl + (cr - cl) / 2) (p * 2) (by omega)
          (fun q hq => h q (inSub_left hq)),
        ih (cl + (cr - cl) / 2 + 1) cr (p * 2 + 1) (by omega)
          (fun q hq => h q (inSub_right hq)),
        (h p (inSub_self p)).2]

theorem inv_agree (t1 t2 : RangeSumSegmentTree) :
    ∀ (fuel cl cr p : Nat), cr - cl ≤ fuel →
      (∀ q, inSub p q → t2.arr q = t1.arr q ∧ t2.mark q = t1.mark q) →
      (inv t1 cl cr p ↔ inv t2 cl cr p) := by
  intro fuel
  induction fuel with
  | zero =>
    intro cl cr p h1 h
    exact iff_of_true (inv_leaf t1 p (by omega)) (inv_leaf t2 p (by omega))
  | succ fuel ih =>
    intro cl cr p h1 h
    by_cases hcr : cr ≤ cl
    · exact iff_of_true (inv_leaf t1 p hcr) (inv_leaf t2 p hcr)
    · rw [inv_node t1 p (by omega), inv_node t2 p (by omega),
        (h p (inSub_self p)).1, (h p (inSub_self p)).2,
        (h (p * 2) (inSub_child_left p)).1,
        (h (p * 2 + 1) (inSub_child_right p)).1]
      exact and_congr Iff.rfl (and_congr
        (ih cl (cl + (cr - cl) / 2) (p * 2) (by omega)
          (fun q hq => h q (inSub_left hq)))
        (ih (cl + (cr - cl) / 2 + 1) cr (p * 2 + 1) (by omega)
          (fun q hq => h q (inSub_right hq))))

/-- Under the coherence invariant the stored aggregate of a node is the sum of
the logical values below it. -/
theorem inv_sum (t : RangeSumSegmentTree) :
    ∀ (fuel cl cr p : Nat), cr - cl ≤ fuel → cl ≤ cr → inv t cl cr p →
      t.arr p = (elems t cl cr p).sum := by
  intro fuel
  induction fuel with
  | zero =>
    intro cl cr p h1 h2 _
    rw [elems_leaf t p (by omega)]
    simp
  | succ fuel ih =>
    intro cl cr p h1 h2 hinv
    by_cases hcr : cr ≤ cl
    · rw [elems_leaf t p hcr]
      simp
    · have hlt : cl < cr := by omega
      rw [inv_node t p hlt] at hinv
      obtain ⟨heq, hl, hr⟩ := hinv
      have e1 := ih cl (cl + (cr - cl) / 2) (p * 2) (by omega) (by omega) hl
      have e2 := ih (cl + (cr - cl) / 2 + 1) cr (p * 2 + 1) (by omega) (by omega) hr
      have l1 := elems_length_of_le t (p * 2) (show cl ≤ cl + (cr - cl) / 2 by omega)
      have l2 := elems_length_of_le t (p * 2 + 1)
        (show cl + (cr - cl) / 2 + 1 ≤ cr by omega)
      rw [elems_node t p hlt, sum_map_add, List.sum_append, List.length_append,
        l1, l2, ← e1, ← e2, heq]
      have ecast : ((cl + (cr - cl) / 2 + 1 - cl) + (cr + 1 - (cl + (cr - cl) / 2 + 1)) : Nat)
          = (cr - cl + 1 : Nat) := by omega
      rw [ecast]

/-! ### The shift lemma -/

/-- If a state differs from `t` only at the root `p` of a subtree, where the
aggregate grew by `δ · size` and (for inner nodes) the mark grew by `δ`, then
the logical values below `p` all shift by `δ` and coherence is preserved.
This captures both the fully-contained branch of `update_rec` and the effect
of `push_down` on each child. -/
theorem shift_spec (t t2 : RangeSumSegmentTree) (cl cr p : Nat) (δ : Int)
    (hp : 1 ≤ p)
    (hagree : ∀ q, inSub p q → q ≠ p → t2.arr q = t.arr q ∧ t2.mark q = t.mark q)
    (harr : t2.arr p = t.arr p + δ * ((cr - cl + 1 : Nat) : Int))
    (hmark : cl < cr → t2.mark p = t.mark p + δ) :
    elems t2 cl cr p = (elems t cl cr p).map (fun x => x + δ)
    ∧ (inv t cl cr p → inv t2 cl cr p) := by
  by_cases hcr : cr ≤ cl
  · constructor
    · rw [elems_leaf t p hcr, elems_leaf t2 p hcr, harr]
      have e1 : ((cr - cl + 1 : Nat) : Int) = 1 := by omega
      rw [e1]
      simp
    · intro _
      exact inv_leaf t2 p hcr
  · have hlt : cl < cr := by omega
    have hm := hmark hlt
    have hagL : ∀ q, inSub (p * 2) q → t2.arr q = t.arr q ∧ t2.mark q = t.mark q := by
      intro q hq
      have hge : p * 2 ≤ q := inSub_le hq
      exact hagree q (inSub_left hq) (by omega)
    have hagR : ∀ q, inSub (p * 2 + 1) q →
        t2.arr q = t.arr q ∧ t2.mark q = t.mark q := by
      intro q hq
      have hge : p * 2 + 1 ≤ q := inSub_le hq
      exact hagree q (inSub_right hq) (by omega)
    have eL := elems_agree t t2 (cl + (cr - cl) / 2 - cl) cl
      (cl + (cr - cl) / 2) (p * 2) (le_refl _) hagL
    have eR := elems_agree t t2 (cr - (cl + (cr - cl) / 2 + 1))
      (cl + (cr - cl) / 2 + 1) cr (p * 2 + 1) (le_refl _) hagR
    constructor
    · rw [elems_node t p hlt, elems_node t2 p hlt, eL, eR, hm, List.map_map]
      refine List.map_congr_left ?_
      intro a _
      simp only [Function.comp]
      ring
    · intro hinv
      rw [inv_node t p hlt] at hinv
      obtain ⟨heq, hl, hr⟩ := hinv
      rw [inv_node t2 p hlt]
      refine ⟨?_, ?_, ?_⟩
      · rw [harr, hm, (hagL (p * 2) (inSub_self _)).1,
          (hagR (p * 2 + 1) (inSub_self _)).1, heq]
        ring
      · exact (inv_agree t t2 (cl + (cr - cl) / 2 - cl) cl
          (cl + (cr - cl) / 2) (p * 2) (le_refl _) hagL).mp hl
      · exact (inv_agree t t2 (cr - (cl + (cr - cl) / 2 + 1))
          (cl + (cr - cl) / 2 + 1) cr (p * 2 + 1) (le_refl _) hagR).mp hr

/-! ### Main lemma for `push_down` at an inner node -/

theorem push_down_main (t : RangeSumSegmentTree) (cl cr p : Nat)
    (hp : 1 ≤ p) (hlt : cl < cr) (hinv : inv t cl cr p) :
    inv (push_down t p ((cr - cl + 1 : Nat) : Int)) cl cr p
    ∧ elems (push_down t p ((cr - cl + 1 : Nat) : Int)) cl cr p = elems t cl cr p
    ∧ (push_down t p ((cr - cl + 1 : Nat) : Int)).mark p = 0
    ∧ (push_down t p ((cr - cl + 1 : Nat) : Int)).arr p = t.arr p
    ∧ inv (push_down t p ((cr - cl + 1 : Nat) : Int)) cl (cl + (cr - cl) / 2) (p * 2)
    ∧ inv (push_down t p ((cr - cl + 1 : Nat) : Int)) (cl + (cr - cl) / 2 + 1) cr
        (p * 2 + 1)
    ∧ elems (push_down t p ((cr - cl + 1 : Nat) : Int)) cl (cl + (cr - cl) / 2)
        (p * 2) =
      (elems t cl (cl + (cr - cl) / 2) (p * 2)).map (fun x => x + t.mark p)
    ∧ elems (push_down t p ((cr - cl + 1 : Nat) : Int)) (cl + (cr - cl) / 2 + 1) cr
        (p * 2 + 1) =
      (elems t (cl + (cr - cl) / 2 + 1) cr (p * 2 + 1)).map (fun x => x + t.mark p) := by
  have hinvN := hinv
  rw [inv_node t p hlt] at hinvN
  obtain ⟨heq, hl, hr⟩ := hinvN
  have sL : (((cr - cl + 1 : Nat) : Int) + 1) / 2 =
      ((cl + (cr - cl) / 2 - cl + 1 : Nat) : Int) := by omega
  have sR : ((cr - cl + 1 : Nat) : Int) / 2 =
      ((cr - (cl + (cr - cl) / 2 + 1) + 1 : Nat) : Int) := by omega
  have hagL : ∀ q, inSub (p * 2) q → q ≠ p * 2 →
      (push_down t p ((cr - cl + 1 : Nat) : Int)).arr q = t.arr q ∧
      (push_down t p ((cr - cl + 1 : Nat) : Int)).mark q = t.mark q := by
    intro q hq hq2
    have hge : p * 2 ≤ q := inSub_le hq
    have hq3 : q ≠ p * 2 + 1 := by
      intro hc
      exact not_inSub_sibling_right hp (hc ▸ hq)
    exact ⟨push_down_arr_frame t p _ hq2 hq3,
      push_down_mark_frame t p _ (by omega) hq2 hq3⟩
  have hagR : ∀ q, inSub (p * 2 + 1) q → q ≠ p * 2 + 1 →
      (push_down t p ((cr - cl + 1 : Nat) : Int)).arr q = t.arr q ∧
      (push_down t p ((cr - cl + 1 : Nat) : Int)).mark q = t.mark q := by
    intro q hq hq2
    have hge : p * 2 + 1 ≤ q := inSub_le hq
    have hq3 : q ≠ p * 2 := by
      intro hc
      exact not_inSub_sibling_left (hc ▸ hq)
    exact ⟨push_down_arr_frame t p _ hq3 hq2,
      push_down_mark_frame t p _ (by omega) hq3 hq2⟩
  have shiftL := shift_spec t (push_down t p ((cr - cl + 1 : Nat) : Int)) cl
    (cl + (cr - cl) / 2) (p * 2) (t.mark p) (by omega) hagL
    (by rw [push_down_arr_left t p _ hp, sL])
    (fun _ => push_down_mark_left t p _ hp)
  have shiftR := shift_spec t (push_down t p ((cr - cl + 1 : Nat) : Int))
    (cl + (cr - cl) / 2 + 1) cr (p * 2 + 1) (t.mark p) (by omega) hagR
    (by rw [push_down_arr_right t p _ hp, sR])
    (fun _ => push_down_mark_right t p _ hp)
  have hcast : ((cl + (cr - cl) / 2 - cl + 1 : Nat) : Int) +
      ((cr - (cl + (cr - cl) / 2 + 1) + 1 : Nat) : Int) =
      ((cr - cl + 1 : Nat) : Int) := by omega
  have hinvPD : inv (push_down t p ((cr - cl + 1 : Nat) : Int)) cl cr p := by
    rw [inv_node _ p hlt]
    refine ⟨?_, shiftL.2 hl, shiftR.2 hr⟩
    rw [push_down_arr_self t p _ hp, push_down_mark_self t p _,
      push_down_arr_left t p _ hp, push_down_arr_right t p _ hp, sL, sR, heq,
      ← hcast]
    ring
  refine ⟨hinvPD, ?_, push_down_mark_self t p _, push_down_arr_self t p _ hp,
    shiftL.2 hl, shiftR.2 hr, shiftL.1, shiftR.1⟩
  rw [elems_node t p hlt, elems_node _ p hlt, shiftL.1, shiftR.1,
    push_down_mark_self t p _, List.map_append, List.map_append, map_add_zero,
    map_add_zero]

/-! ### The operations never touch entries outside the subtree they work on -/

theorem update_go_outside :
    ∀ (fuel : Nat) (t : RangeSumSegmentTree) (l r cl cr p : Nat) (d : Int)
      (q : Nat), 1 ≤ p → ¬ inSub p q →
      (update_go fuel t l r cl cr p d).arr q = t.arr q ∧
      (update_go fuel t l r cl cr p d).mark q = t.mark q := by
  intro fuel
  induction fuel with
  | zero =>
    intro t l r cl cr p d q hp hq
    have hqp : q ≠ p := fun hc => hq (hc ▸ inSub_self p)
    rw [update_go]
    split
    · exact ⟨rfl, rfl⟩
    · split
      · split <;> exact ⟨by simp [setf, hqp], by simp [setf, hqp]⟩
      · exact ⟨rfl, rfl⟩
  | succ fuel ih =>
    intro t l r cl cr p d q hp hq
    have hqp : q ≠ p := fun hc => hq (hc ▸ inSub_self p)
    rw [update_go]
    split
    · exact ⟨rfl, rfl⟩
    · split
      · split <;> exact ⟨by simp [setf, hqp], by simp [setf, hqp]⟩
      · have h2p : ¬ inSub (p * 2) q := fun hc => hq (inSub_left hc)
        have h2p1 : ¬ inSub (p * 2 + 1) q := fun hc => hq (inSub_right hc)
        have hq2p : q ≠ p * 2 := fun hc => hq (hc ▸ inSub_child_left p)
        have hq2p1 : q ≠ p * 2 + 1 := fun hc => hq (hc ▸ inSub_child_right p)
        have e0a := push_down_arr_frame t p ((cr - cl + 1 : Nat) : Int) hq2p hq2p1
        have e0m := push_down_mark_frame t p ((cr - cl + 1 : Nat) : Int) hqp hq2p hq2p1
        have e1 := ih (push_down t p ((cr - cl + 1 : Nat) : Int)) l r cl
          (cl + (cr - cl) / 2) (p * 2) d q (by omega) h2p
        have e2 := ih (update_go fuel (push_down t p ((cr - cl + 1 : Nat) : Int))
          l r cl (cl + (cr - cl) / 2) (p * 2) d) l r (cl + (cr - cl) / 2 + 1) cr
          (p * 2 + 1) d q (by omega) h2p1
        push_cast at e0a e0m e1 e2
        exact ⟨by simp [setf, hqp, e2.1, e1.1, e0a],
          by simp [e2.2, e1.2, e0m]⟩

theorem query_go_outside :
    ∀ (fuel : Nat) (t : RangeSumSegmentTree) (l r cl cr p : Nat)
      (q : Nat), 1 ≤ p → ¬ inSub p q →
      (query_go fuel t l r cl cr p).2.arr q = t.arr q ∧
      (query_go fuel t l r cl cr p).2.mark q = t.mark q := by
  intro fuel
  induction fuel with
  | zero =>
    intro t l r cl cr p q hp hq
    rw [query_go]
    split
    · exact ⟨rfl, rfl⟩
    · split <;> exact ⟨rfl, rfl⟩
  | succ fuel ih =>
    intro t l r cl cr p q hp hq
    have hqp : q ≠ p := fun hc => hq (hc ▸ inSub_self p)
    rw [query_go]
    split
    · exact ⟨rfl, rfl⟩
    · split
      · exact ⟨rfl, rfl⟩
      · have h2p : ¬ inSub (p * 2) q := fun hc => hq (inSub_left hc)
        have h2p1 : ¬ inSub (p * 2 + 1) q := fun hc => hq (inSub_right hc)
        have hq2p : q ≠ p * 2 := fun hc => hq (hc ▸ inSub_child_left p)
        have hq2p1 : q ≠ p * 2 + 1 := fun hc => hq (hc ▸ inSub_child_right p)
        have e0a := push_down_arr_frame t p ((cr - cl + 1 : Nat) : Int) hq2p hq2p1
        have e0m := push_down_mark_frame t p ((cr - cl + 1 : Nat) : Int) hqp hq2p hq2p1
        have e1 := ih (push_down t p ((cr - cl + 1 : Nat) : Int)) l r cl
          (cl + (cr - cl) / 2) (p * 2) q (by omega) h2p
        have e2 := ih (query_go fuel (push_down t p ((cr - cl + 1 : Nat) : Int))
          l r cl (cl + (cr - cl) / 2) (p * 2)).2 l r (cl + (cr - cl) / 2 + 1) cr
          (p * 2 + 1) q (by omega) h2p1
        push_cast at e0a e0m e1 e2
        exact ⟨by simp [e2.1, e1.1, e0a], by simp [e2.2, e1.2, e0m]⟩

theorem build_go_outside :
    ∀ (fuel : Nat) (t : RangeSumSegmentTree) (v : List Int) (left right p : Nat)
      (q : Nat), 1 ≤ p → ¬ inSub p q →
      (build_go fuel t v left right p).arr q = t.arr q := by
  intro fuel
  induction fuel with
  | zero =>
    intro t v left right p q hp hq
    have hqp : q ≠ p := fun hc => hq (hc ▸ inSub_self p)
    rw [build_go]
    split
    · simp [setf, hqp]
    · rfl
  | succ fuel ih =>
    intro t v left right p q hp hq
    have hqp : q ≠ p := fun hc => hq (hc ▸ inSub_self p)
    rw [build_go]
    split
    · simp [setf, hqp]
    · have h2p : ¬ inSub (p * 2) q := fun hc => hq (inSub_left hc)
      have h2p1 : ¬ inSub (p * 2 + 1) q := fun hc => hq (inSub_right hc)
      have e1 := ih t v left (left + (right - left) / 2) (p * 2) q (by omega) h2p
      have e2 := ih (build_go fuel t v left (left + (right - left) / 2) (p * 2))
        v (left + (right - left) / 2 + 1) right (p * 2 + 1) q (by omega) h2p1
      simp [setf, hqp, e2, e1]

/-! ### Correctness of `build_rec` -/

theorem drop_take_one (v : List Int) :
    ∀ (i : Nat), i < v.length → (v.drop i).take 1 = [v.getD i 0] := by
  induction v with
  | nil => intro i h; simp at h
  | cons x xs ih =>
    intro i h
    cases i with
    | zero => simp
    | succ i =>
      simp only [List.drop_succ_cons, List.getD_cons_succ]
      exact ih i (by simpa using h)

theorem take_drop_split (v : List Int) (cl mid cr : Nat)
    (h1 : 1 ≤ cl) (h2 : cl ≤ mid + 1) (h3 : mid ≤ cr) :
    (v.drop (cl - 1)).take (cr + 1 - cl) =
      (v.drop (cl - 1)).take (mid + 1 - cl) ++ (v.drop mid).take (cr - mid) := by
  have e : cr + 1 - cl = (mid + 1 - cl) + (cr - mid) := by omega
  rw [e, List.take_add]
  congr 1
  rw [List.drop_drop]
  have e2 : cl - 1 + (mid + 1 - cl) = mid := by omega
  rw [e2]

theorem build_go_eq_leaf (fuel : Nat) (t : RangeSumSegmentTree) (v : List Int)
    (left p : Nat) :
    build_go fuel t v left left p =
      { t with arr := setf t.arr p (v.getD (left - 1) 0) } := by
  cases fuel <;> simp [build_go]

/-- Writing the aggregate of the parent `p` does not change anything inside
the subtrees of its two children. -/
theorem parent_write_agree (t2 : RangeSumSegmentTree) (p : Nat) (x : Int)
    (hp : 1 ≤ p) :
    ∀ q, inSub (p * 2) q ∨ inSub (p * 2 + 1) q →
      ({ t2 with arr := setf t2.arr p x } : RangeSumSegmentTree).arr q = t2.arr q ∧
      ({ t2 with arr := setf t2.arr p x } : RangeSumSegmentTree).mark q = t2.mark q := by
  intro q hq
  have hpq : p < q := by
    rcases hq with h | h
    · have := inSub_le h; omega
    · have := inSub_le h; omega
  exact ⟨by simp [setf, show ¬(q = p) by omega], rfl⟩

theorem build_go_main (v : List Int) :
    ∀ (fuel : Nat) (t : RangeSumSegmentTree) (cl cr p : Nat),
      cr - cl ≤ fuel → 1 ≤ cl → cl ≤ cr → cr ≤ v.length → 1 ≤ p →
      (∀ q, inSub p q → t.mark q = 0) →
      inv (build_go fuel t v cl cr p) cl cr p ∧
      elems (build_go fuel t v cl cr p) cl cr p =
        (v.drop (cl - 1)).take (cr + 1 - cl) := by
  intro fuel
  induction fuel with
  | zero =>
    intro t cl cr p h1 hcl1 hclcr hcr hp hm
    have hcc : cl = cr := by omega
    subst hcc
    rw [build_go_eq_leaf]
    refine ⟨inv_leaf _ p (le_refl cl), ?_⟩
    rw [elems_leaf _ p (le_refl cl)]
    have e1 : cl + 1 - cl = 1 := by omega
    rw [e1, drop_take_one v (cl - 1) (by omega)]
    simp [setf]
  | succ fuel ih =>
    intro t cl cr p h1 hcl1 hclcr hcr hp hm
    by_cases hcc : cl = cr
    · subst hcc
      rw [build_go_eq_leaf]
      refine ⟨inv_leaf _ p (le_refl cl), ?_⟩
      rw [elems_leaf _ p (le_refl cl)]
      have e1 : cl + 1 - cl = 1 := by omega
      rw [e1, drop_take_one v (cl - 1) (by omega)]
      simp [setf]
    · have hlt : cl < cr := by omega
      have ih1 := ih t cl (cl + (cr - cl) / 2) (p * 2) (by omega) hcl1 (by omega)
        (by omega) (by omega) (fun q hq => hm q (inSub_left hq))
      have hm2 : ∀ q, inSub (p * 2 + 1) q →
          (build_go fuel t v cl (cl + (cr - cl) / 2) (p * 2)).mark q = 0 := by
        intro q hq
        rw [build_go_mark]
        exact hm q (inSub_right hq)
      have ih2 := ih (build_go fuel t v cl (cl + (cr - cl) / 2) (p * 2))
        (cl + (cr - cl) / 2 + 1) cr (p * 2 + 1) (by omega) (by omega) (by omega)
        hcr (by omega) hm2
      have hfr : ∀ q, inSub (p * 2) q →
          (build_go fuel (build_go fuel t v cl (cl + (cr - cl) / 2) (p * 2)) v
              (cl + (cr - cl) / 2 + 1) cr (p * 2 + 1)).arr q =
            (build_go fuel t v cl (cl + (cr - cl) / 2) (p * 2)).arr q ∧
          (build_go fuel (build_go fuel t v cl (cl + (cr - cl) / 2) (p * 2)) v
              (cl + (cr - cl) / 2 + 1) cr (p * 2 + 1)).mark q =
            (build_go fuel t v cl (cl + (cr - cl) / 2) (p * 2)).mark q := by
        intro q hq
        refine ⟨build_go_outside fuel _ v _ cr (p * 2 + 1) q (by omega)
          (fun hc => inSub_disjoint hp hq hc), ?_⟩
        rw [build_go_mark]
      have eL := elems_agree (build_go fuel t v cl (cl + (cr - cl) / 2) (p * 2))
        (build_go fuel (build_go fuel t v cl (cl + (cr - cl) / 2) (p * 2)) v
          (cl + (cr - cl) / 2 + 1) cr (p * 2 + 1)) (cl + (cr - cl) / 2 - cl) cl
        (cl + (cr - cl) / 2) (p * 2) (le_refl _) hfr
      have iL := (inv_agree (build_go fuel t v cl (cl + (cr - cl) / 2) (p * 2))
        (build_go fuel (build_go fuel t v cl (cl + (cr - cl) / 2) (p * 2)) v
          (cl + (cr - cl) / 2 + 1) cr (p * 2 + 1)) (cl + (cr - cl) / 2 - cl) cl
        (cl + (cr - cl) / 2) (p * 2) (le_refl _) hfr).mp ih1.1
      have markT2 : (build_go fuel (build_go fuel t v cl (cl + (cr - cl) / 2) (p * 2))
          v (cl + (cr - cl) / 2 + 1) cr (p * 2 + 1)).mark p = 0 := by
        rw [build_go_mark, build_go_mark]
        exact hm p (inSub_self p)
      simp only [build_go, if_neg hcc]
      constructor
      · rw [inv_node _ p hlt]
        refine ⟨?_, ?_, ?_⟩
        · simp [setf, markT2, show ¬(p * 2 = p) by omega,
            show ¬(p * 2 + 1 = p) by omega]
        · exact (inv_agree _ _ (cl + (cr - cl) / 2 - cl) cl (cl + (cr - cl) / 2)
            (p * 2) (le_refl _)
            (fun q hq => parent_write_agree _ p _ hp q (Or.inl hq))).mp iL
        · exact (inv_agree _ _ (cr - (cl + (cr - cl) / 2 + 1))
            (cl + (cr - cl) / 2 + 1) cr (p * 2 + 1) (le_refl _)
            (fun q hq => parent_write_agree _ p _ hp q (Or.inr hq))).mp ih2.1
      · rw [elems_node _ p hlt,
          elems_agree _ _ (cl + (cr - cl) / 2 - cl) cl (cl + (cr - cl) / 2) (p * 2)
            (le_refl _) (fun q hq => parent_write_agree _ p _ hp q (Or.inl hq)),
          elems_agree _ _ (cr - (cl + (cr - cl) / 2 + 1)) (cl + (cr - cl) / 2 + 1)
            cr (p * 2 + 1) (le_refl _)
            (fun q hq => parent_write_agree _ p _ hp q (Or.inr hq)),
          eL, ih1.2, ih2.2,
          take_drop_split v cl (cl + (cr - cl) / 2) cr hcl1 (by omega) (by omega)]
        have ed : cl + (cr - cl) / 2 + 1 - 1 = cl + (cr - cl) / 2 := by omega
        have ec : cr + 1 - (cl + (cr - cl) / 2 + 1) = cr - (cl + (cr - cl) / 2) := by
          omega
        rw [ed, ec]
        simp [markT2]

/-! ### Main lemma for `update_rec` -/

/-- `update_rec` preserves the coherence invariant and adds `d` to exactly the
logical values whose index lies in `[l, r]`. -/
theorem update_go_main (l r : Nat) (d : Int) :
    ∀ (fuel : Nat) (t : RangeSumSegmentTree) (cl cr p : Nat),
      cr - cl ≤ fuel → 1 ≤ p → cl ≤ cr → inv t cl cr p →
      inv (update_go fuel t l r cl cr p d) cl cr p ∧
      elems (update_go fuel t l r cl cr p d) cl cr p =
        addOn l r d cl (elems t cl cr p) := by
  intro fuel
  induction fuel with
  | zero =>
    intro t cl cr p h1 hp hclcr hinv
    rw [update_go]
    split
    · rename_i hc1
      refine ⟨hinv, ?_⟩
      rcases hc1 with hc | hc
      · rw [addOn_id_right l r d _ cl (by omega)]
      · rw [addOn_id_left l r d _ cl
          (by rw [elems_length_of_le t p hclcr]; omega)]
    · split
      · rename_i hc1 hc2
        split
        · have key := shift_spec t
            { t with
              arr := setf t.arr p (t.arr p + d * ((cr - cl + 1 : Nat) : Int)),
              mark := setf t.mark p (t.mark p + d) } cl cr p d hp
            (fun q hq hqp => ⟨setf_other _ _ hqp, setf_other _ _ hqp⟩)
            (setf_same _ _ _) (fun _ => setf_same _ _ _)
          constructor
          · exact key.2 hinv
          · rw [addOn_full l r d _ cl (by omega)
              (by rw [elems_length_of_le t p hclcr]; omega)]
            exact key.1
        · rename_i hnlr
          have key := shift_spec t
            { t with arr := setf t.arr p (t.arr p + d * ((cr - cl + 1 : Nat) : Int)) }
            cl cr p d hp
            (fun q hq hqp => ⟨setf_other _ _ hqp, rfl⟩)
            (setf_same _ _ _)
            (fun hltcr => absurd (show l < r by omega) hnlr)
          constructor
          · exact key.2 hinv
          · rw [addOn_full l r d _ cl (by omega)
              (by rw [elems_length_of_le t p hclcr]; omega)]
            exact key.1
      · rename_i hc1 hc2
        exfalso
        omega
  | succ fuel ih =>
    intro t cl cr p h1 hp hclcr hinv
    rw [update_go]
    split
    · rename_i hc1
      refine ⟨hinv, ?_⟩
      rcases hc1 with hc | hc
      · rw [addOn_id_right l r d _ cl (by omega)]
      · rw [addOn_id_left l r d _ cl
          (by rw [elems_length_of_le t p hclcr]; omega)]
    · split
      · rename_i hc1 hc2
        split
        · have key := shift_spec t
            { t with
              arr := setf t.arr p (t.arr p + d * ((cr - cl + 1 : Nat) : Int)),
              mark := setf t.mark p (t.mark p + d) } cl cr p d hp
            (fun q hq hqp => ⟨setf_other _ _ hqp, setf_other _ _ hqp⟩)
            (setf_same _ _ _) (fun _ => setf_same _ _ _)
          constructor
          · exact key.2 hinv
          · rw [addOn_full l r d _ cl (by omega)
              (by rw [elems_length_of_le t p hclcr]; omega)]
            exact key.1
        · rename_i hnlr
          have key := shift_spec t
            { t with arr := setf t.arr p (t.arr p + d * ((cr - cl + 1 : Nat) : Int)) }
            cl cr p d hp
            (fun q hq hqp => ⟨setf_other _ _ hqp, rfl⟩)
            (setf_same _ _ _)
            (fun hltcr => absurd (show l < r by omega) hnlr)
          constructor
          · exact key.2 hinv
          · rw [addOn_full l r d _ cl (by omega)
              (by rw [elems_length_of_le t p hclcr]; omega)]
            exact key.1
      · rename_i hc1 hc2
        have hlt : cl < cr := by omega
        simp only []
        obtain ⟨pdInv, pdElems, pdMark0, pdArrSelf, pdInvL, pdInvR, pdElemsL,
          pdElemsR⟩ := push_down_main t cl cr p hp hlt hinv
        have ih1 := ih (push_down t p ((cr - cl + 1 : Nat) : Int)) cl
          (cl + (cr - cl) / 2) (p * 2) (by omega) (by omega) (by omega) pdInvL
        have hfr2 : ∀ q, inSub (p * 2 + 1) q →
            (update_go fuel (push_down t p ((cr - cl + 1 : Nat) : Int)) l r cl
              (cl + (cr - cl) / 2) (p * 2) d).arr q =
              (push_down t p ((cr - cl + 1 : Nat) : Int)).arr q ∧
            (update_go fuel (push_down t p ((cr - cl + 1 : Nat) : Int)) l r cl
              (cl + (cr - cl) / 2) (p * 2) d).mark q =
              (push_down t p ((cr - cl + 1 : Nat) : Int)).mark q :=
          fun q hq => update_go_outside fuel _ l r cl (cl + (cr - cl) / 2) (p * 2)
            d q (by omega) (fun hc => inSub_disjoint hp hc hq)
        have eR12 := elems_agree _ _ (cr - (cl + (cr - cl) / 2 + 1))
          (cl + (cr - cl) / 2 + 1) cr (p * 2 + 1) (le_refl _) hfr2
        have iR2 := (inv_agree _ _ (cr - (cl + (cr - cl) / 2 + 1))
          (cl + (cr - cl) / 2 + 1) cr (p * 2 + 1) (le_refl _) hfr2).mp pdInvR
        have ih2 := ih (update_go fuel (push_down t p ((cr - cl + 1 : Nat) : Int))
          l r cl (cl + (cr - cl) / 2) (p * 2) d) (cl + (cr - cl) / 2 + 1) cr
          (p * 2 + 1) (by omega) (by omega) (by omega) iR2
        have hfr3 : ∀ q, inSub (p * 2) q →
            (update_go fuel (update_go fuel (push_down t p ((cr - cl + 1 : Nat) : Int))
              l r cl (cl + (cr - cl) / 2) (p * 2) d) l r (cl + (cr - cl) / 2 + 1) cr
              (p * 2 + 1) d).arr q =
              (update_go fuel (push_down t p ((cr - cl + 1 : Nat) : Int)) l r cl
                (cl + (cr - cl) / 2) (p * 2) d).arr q ∧
            (update_go fuel (update_go fuel (push_down t p ((cr - cl + 1 : Nat) : Int))
              l r cl (cl + (cr - cl) / 2) (p * 2) d) l r (cl + (cr - cl) / 2 + 1) cr
              (p * 2 + 1) d).mark q =
              (update_go fuel (push_down t p ((cr - cl + 1 : Nat) : Int)) l r cl
                (cl + (cr - cl) / 2) (p * 2) d).mark q :=
          fun q hq => update_go_outside fuel _ l r (cl + (cr - cl) / 2 + 1) cr
            (p * 2 + 1) d q (by omega) (fun hc => inSub_disjoint hp hq hc)
        have eL23 := elems_agree _ _ (cl + (cr - cl) / 2 - cl) cl
          (cl + (cr - cl) / 2) (p * 2) (le_refl _) hfr3
        have iL3 := (inv_agree _ _ (cl + (cr - cl) / 2 - cl) cl (cl + (cr - cl) / 2)
          (p * 2) (le_refl _) hfr3).mp ih1.1
        have markT3 : (update_go fuel (update_go fuel
            (push_down t p ((cr - cl + 1 : Nat) : Int)) l r cl (cl + (cr - cl) / 2)
            (p * 2) d) l r (cl + (cr - cl) / 2 + 1) cr (p * 2 + 1) d).mark p = 0 := by
          rw [(update_go_outside fuel _ l r (cl + (cr - cl) / 2 + 1) cr (p * 2 + 1)
            d p (by omega) (not_inSub_of_lt (by omega))).2,
            (update_go_outside fuel _ l r cl (cl + (cr - cl) / 2) (p * 2) d p
            (by omega) (not_inSub_of_lt (by omega))).2, pdMark0]
        constructor
        · rw [inv_node _ p hlt]
          refine ⟨?_, ?_, ?_⟩
          · push_cast at markT3
            simp [setf, markT3, show ¬(p * 2 = p) by omega,
              show ¬(p * 2 + 1 = p) by omega]
          · exact (inv_agree _ _ (cl + (cr - cl) / 2 - cl) cl (cl + (cr - cl) / 2)
              (p * 2) (le_refl _)
              (fun q hq => parent_write_agree _ p _ hp q (Or.inl hq))).mp iL3
          · exact (inv_agree _ _ (cr - (cl + (cr - cl) / 2 + 1))
              (cl + (cr - cl) / 2 + 1) cr (p * 2 + 1) (le_refl _)
              (fun q hq => parent_write_agree _ p _ hp q (Or.inr hq))).mp ih2.1
        · rw [elems_node _ p hlt,
            elems_agree _ _ (cl + (cr - cl) / 2 - cl) cl (cl + (cr - cl) / 2)
              (p * 2) (le_refl _)
              (fun q hq => parent_write_agree _ p _ hp q (Or.inl hq)),
            elems_agree _ _ (cr - (cl + (cr - cl) / 2 + 1)) (cl + (cr - cl) / 2 + 1)
              cr (p * 2 + 1) (le_refl _)
              (fun q hq => parent_write_agree _ p _ hp q (Or.inr hq))]
          simp only [markT3, map_add_zero]
          rw [eL23, ih1.2, ih2.2, eR12, pdElemsL, pdElemsR, addOn_map, addOn_map,
            elems_node t p hlt, addOn_map, addOn_append,
            elems_length_of_le t (p * 2) (show cl ≤ cl + (cr - cl) / 2 by omega)]
          have ee : cl + (cl + (cr - cl) / 2 + 1 - cl) = cl + (cr - cl) / 2 + 1 := by
            omega
          rw [ee, List.map_append]

/-! ### Main lemma for `query_rec` -/

/-- `query_rec` returns the sum of the logical values with index in `[l, r]`,
preserves the coherence invariant, and leaves all logical values unchanged
(it mutates `arr`/`mark` only through push-downs). -/
theorem query_go_main (l r : Nat) :
    ∀ (fuel : Nat) (t : RangeSumSegmentTree) (cl cr p : Nat),
      cr - cl ≤ fuel → 1 ≤ p → cl ≤ cr → inv t cl cr p →
      (query_go fuel t l r cl cr p).1 = sumIn l r cl (elems t cl cr p) ∧
      inv (query_go fuel t l r cl cr p).2 cl cr p ∧
      elems (query_go fuel t l r cl cr p).2 cl cr p = elems t cl cr p := by
  intro fuel
  induction fuel with
  | zero =>
    intro t cl cr p h1 hp hclcr hinv
    rw [query_go]
    split
    · rename_i hc1
      refine ⟨?_, hinv, rfl⟩
      rcases hc1 with hc | hc
      · exact (sumIn_zero_right l r _ cl (by omega)).symm
      · exact (sumIn_zero_left l r _ cl
          (by rw [elems_length_of_le t p hclcr]; omega)).symm
    · split
      · rename_i hc1 hc2
        refine ⟨?_, hinv, rfl⟩
        rw [sumIn_full l r _ cl (by omega)
          (by rw [elems_length_of_le t p hclcr]; omega)]
        exact inv_sum t (cr - cl) cl cr p (le_refl _) hclcr hinv
      · rename_i hc1 hc2
        exfalso
        omega
  | succ fuel ih =>
    intro t cl cr p h1 hp hclcr hinv
    rw [query_go]
    split
    · rename_i hc1
      refine ⟨?_, hinv, rfl⟩
      rcases hc1 with hc | hc
      · exact (sumIn_zero_right l r _ cl (by omega)).symm
      · exact (sumIn_zero_left l r _ cl
          (by rw [elems_length_of_le t p hclcr]; omega)).symm
    · split
      · rename_i hc1 hc2
        refine ⟨?_, hinv, rfl⟩
        rw [sumIn_full l r _ cl (by omega)
          (by rw [elems_length_of_le t p hclcr]; omega)]
        exact inv_sum t (cr - cl) cl cr p (le_refl _) hclcr hinv
      · rename_i hc1 hc2
        have hlt : cl < cr := by omega
        simp only []
        obtain ⟨pdInv, pdElems, pdMark0, pdArrSelf, pdInvL, pdInvR, pdElemsL,
          pdElemsR⟩ := push_down_main t cl cr p hp hlt hinv
        have ih1 := ih (push_down t p ((cr - cl + 1 : Nat) : Int)) cl
          (cl + (cr - cl) / 2) (p * 2) (by omega) (by omega) (by omega) pdInvL
        have hfr2 : ∀ q, inSub (p * 2 + 1) q →
            (query_go fuel (push_down t p ((cr - cl + 1 : Nat) : Int)) l r cl
              (cl + (cr - cl) / 2) (p * 2)).2.arr q =
              (push_down t p ((cr - cl + 1 : Nat) : Int)).arr q ∧
            (query_go fuel (push_down t p ((cr - cl + 1 : Nat) : Int)) l r cl
              (cl + (cr - cl) / 2) (p * 2)).2.mark q =
              (push_down t p ((cr - cl + 1 : Nat) : Int)).mark q :=
          fun q hq => query_go_outside fuel _ l r cl (cl + (cr - cl) / 2) (p * 2)
            q (by omega) (fun hc => inSub_disjoint hp hc hq)
        have eR12 := elems_agree _ _ (cr - (cl + (cr - cl) / 2 + 1))
          (cl + (cr - cl) / 2 + 1) cr (p * 2 + 1) (le_refl _) hfr2
        have iR2 := (inv_agree _ _ (cr - (cl + (cr - cl) / 2 + 1))
          (cl + (cr - cl) / 2 + 1) cr (p * 2 + 1) (le_refl _) hfr2).mp pdInvR
        have ih2 := ih (query_go fuel (push_down t p ((cr - cl + 1 : Nat) : Int))
          l r cl (cl + (cr - cl) / 2) (p * 2)).2 (cl + (cr - cl) / 2 + 1) cr
          (p * 2 + 1) (by omega) (by omega) (by omega) iR2
        have hfr3 : ∀ q, inSub (p * 2) q →
            (query_go fuel (query_go fuel (push_down t p ((cr - cl + 1 : Nat) : Int))
              l r cl (cl + (cr - cl) / 2) (p * 2)).2 l r (cl + (cr - cl) / 2 + 1)
              cr (p * 2 + 1)).2.arr q =
              (query_go fuel (push_down t p ((cr - cl + 1 : Nat) : Int)) l r cl
                (cl + (cr - cl) / 2) (p * 2)).2.arr q ∧
            (query_go fuel (query_go fuel (push_down t p ((cr - cl + 1 : Nat) : Int))
              l r cl (cl + (cr - cl) / 2) (p * 2)).2 l r (cl + (cr - cl) / 2 + 1)
              cr (p * 2 + 1)).2.mark q =
              (query_go fuel (push_down t p ((cr - cl + 1 : Nat) : Int)) l r cl
                (cl + (cr - cl) / 2) (p * 2)).2.mark q :=
          fun q hq => query_go_outside fuel _ l r (cl + (cr - cl) / 2 + 1) cr
            (p * 2 + 1) q (by omega) (fun hc => inSub_disjoint hp hq hc)
        have eL23 := elems_agree _ _ (cl + (cr - cl) / 2 - cl) cl
          (cl + (cr - cl) / 2) (p * 2) (le_refl _) hfr3
        have iL3 := (inv_agree _ _ (cl + (cr - cl) / 2 - cl) cl (cl + (cr - cl) / 2)
          (p * 2) (le_refl _) hfr3).mp ih1.2.1
        have markS2 : (query_go fuel (query_go fuel
            (push_down t p ((cr - cl + 1 : Nat) : Int)) l r cl (cl + (cr - cl) / 2)
            (p * 2)).2 l r (cl + (cr - cl) / 2 + 1) cr (p * 2 + 1)).2.mark p = 0 := by
          rw [(query_go_outside fuel _ l r (cl + (cr - cl) / 2 + 1) cr (p * 2 + 1)
            p (by omega) (not_inSub_of_lt (by omega))).2,
            (query_go_outside fuel _ l r cl (cl + (cr - cl) / 2) (p * 2) p
            (by omega) (not_inSub_of_lt (by omega))).2, pdMark0]
        refine ⟨?_, ?_, ?_⟩
        · rw [ih1.1, ih2.1, eR12, ← pdElems,
            elems_node (push_down t p ((cr - cl + 1 : Nat) : Int)) p hlt, pdMark0,
            map_add_zero, sumIn_append,
            elems_length_of_le (push_down t p ((cr - cl + 1 : Nat) : Int)) (p * 2)
              (show cl ≤ cl + (cr - cl) / 2 by omega)]
          have ee : cl + (cl + (cr - cl) / 2 + 1 - cl) = cl + (cr - cl) / 2 + 1 := by
            omega
          rw [ee]
        · rw [inv_node _ p hlt]
          refine ⟨?_, iL3, ih2.2.1⟩
          have arrP : (query_go fuel (query_go fuel
              (push_down t p ((cr - cl + 1 : Nat) : Int)) l r cl (cl + (cr - cl) / 2)
              (p * 2)).2 l r (cl + (cr - cl) / 2 + 1) cr (p * 2 + 1)).2.arr p =
              (push_down t p ((cr - cl + 1 : Nat) : Int)).arr p := by
            rw [(query_go_outside fuel _ l r (cl + (cr - cl) / 2 + 1) cr (p * 2 + 1)
              p (by omega) (not_inSub_of_lt (by omega))).1,
              (query_go_outside fuel _ l r cl (cl + (cr - cl) / 2) (p * 2) p
              (by omega) (not_inSub_of_lt (by omega))).1]
          have aL : (query_go fuel (query_go fuel
              (push_down t p ((cr - cl + 1 : Nat) : Int)) l r cl (cl + (cr - cl) / 2)
              (p * 2)).2 l r (cl + (cr - cl) / 2 + 1) cr (p * 2 + 1)).2.arr (p * 2) =
              (elems (push_down t p ((cr - cl + 1 : Nat) : Int)) cl
                (cl + (cr - cl) / 2) (p * 2)).sum := by
            rw [inv_sum _ (cl + (cr - cl) / 2 - cl) cl (cl + (cr - cl) / 2) (p * 2)
              (le_refl _) (by omega) iL3, eL23, ih1.2.2]
          have aR : (query_go fuel (query_go fuel
              (push_down t p ((cr - cl + 1 : Nat) : Int)) l r cl (cl + (cr - cl) / 2)
              (p * 2)).2 l r (cl + (cr - cl) / 2 + 1) cr (p * 2 + 1)).2.arr
              (p * 2 + 1) =
              (elems (push_down t p ((cr - cl + 1 : Nat) : Int))
                (cl + (cr - cl) / 2 + 1) cr (p * 2 + 1)).sum := by
            rw [inv_sum _ (cr - (cl + (cr - cl) / 2 + 1)) (cl + (cr - cl) / 2 + 1)
              cr (p * 2 + 1) (le_refl _) (by omega) ih2.2.1, ih2.2.2, eR12]
          have tL : (push_down t p ((cr - cl + 1 : Nat) : Int)).arr (p * 2) =
              (elems (push_down t p ((cr - cl + 1 : Nat) : Int)) cl
                (cl + (cr - cl) / 2) (p * 2)).sum :=
            inv_sum _ (cl + (cr - cl) / 2 - cl) cl (cl + (cr - cl) / 2) (p * 2)
              (le_refl _) (by omega) pdInvL
          have tR : (push_down t p ((cr - cl + 1 : Nat) : Int)).arr (p * 2 + 1) =
              (elems (push_down t p ((cr - cl + 1 : Nat) : Int))
                (cl + (cr - cl) / 2 + 1) cr (p * 2 + 1)).sum :=
            inv_sum _ (cr - (cl + (cr - cl) / 2 + 1)) (cl + (cr - cl) / 2 + 1) cr
              (p * 2 + 1) (le_refl _) (by omega) pdInvR
          have eqPD := ((inv_node (push_down t p ((cr - cl + 1 : Nat) : Int)) p
            hlt).mp pdInv).1
          rw [arrP, aL, aR, markS2, eqPD, pdMark0, tL, tR]
        · rw [← pdElems, elems_node _ p hlt,
            elems_node (push_down t p ((cr - cl + 1 : Nat) : Int)) p hlt,
            eL23, ih1.2.2, ih2.2.2, eR12, markS2, pdMark0]

/-! ### Facts about `from_vec` and the exported wrappers -/

theorem from_vec_len (v : List Int) : (from_vec v).len = v.length := by
  simp only [from_vec]
  rw [(build_go_shape v.length _ v 1 v.length 1).1]

theorem from_vec_cap (v : List Int) :
    (from_vec v).cap = calculate_length v.length := by
  simp only [from_vec]
  rw [(build_go_shape v.length _ v 1 v.length 1).2]

theorem from_vec_mark (v : List Int) (q : Nat) : (from_vec v).mark q = 0 := by
  simp only [from_vec]
  rw [build_go_mark]

theorem from_vec_inv (v : List Int) (hn : 1 ≤ v.length) :
    inv (from_vec v) 1 v.length 1 := by
  simp only [from_vec]
  exact (build_go_main v v.length _ 1 v.length 1 (by omega) (by omega) hn
    (le_refl _) (by omega) (fun q _ => rfl)).1

theorem from_vec_elems (v : List Int) (hn : 1 ≤ v.length) :
    elems (from_vec v) 1 v.length 1 = v := by
  simp only [from_vec]
  rw [(build_go_main v v.length _ 1 v.length 1 (by omega) (by omega) hn
    (le_refl _) (by omega) (fun q _ => rfl)).2]
  have e : v.length + 1 - 1 = v.length := by omega
  have e2 : (1 : Nat) - 1 = 0 := by omega
  rw [e, e2, List.drop_zero, List.take_length]

theorem update_shape (t : RangeSumSegmentTree) (i j : Nat) (d : Int) :
    (update t i j d).len = t.len ∧ (update t i j d).cap = t.cap :=
  update_go_shape t.len t i j 1 t.len 1 d

theorem query_shape (t : RangeSumSegmentTree) (i j : Nat) :
    (query t i j).2.len = t.len ∧ (query t i j).2.cap = t.cap :=
  query_go_shape t.len t i j 1 t.len 1

/-! ### Every reachable state satisfies the coherence invariant -/

theorem reach_basic (v : List Int) (t : RangeSumSegmentTree) (hn : 1 ≤ v.length)
    (h : Reachable v t) :
    t.len = v.length ∧ t.cap = calculate_length v.length ∧ inv t 1 t.len 1 := by
  induction h with
  | base =>
    refine ⟨from_vec_len v, from_vec_cap v, ?_⟩
    rw [from_vec_len v]
    exact from_vec_inv v hn
  | update_step i j d hr hi hij hj ih =>
    obtain ⟨hlen, hcap, hinv⟩ := ih
    refine ⟨?_, ?_, ?_⟩
    · rw [(update_shape _ i j d).1, hlen]
    · rw [(update_shape _ i j d).2, hcap]
    · rw [(update_shape _ i j d).1]
      exact (update_go_main i j d _ _ 1 _ 1 (by omega) (by omega) (by omega)
        hinv).1
  | query_step i j hr hi hij hj ih =>
    obtain ⟨hlen, hcap, hinv⟩ := ih
    refine ⟨?_, ?_, ?_⟩
    · rw [(query_shape _ i j).1, hlen]
    · rw [(query_shape _ i j).2, hcap]
    · rw [(query_shape _ i j).1]
      exact (query_go_main i j _ _ 1 _ 1 (by omega) (by omega) (by omega)
        hinv).2.1

/-! ### Ancestor chains of tree positions -/

theorem ancestorsGo_congr :
    ∀ (f g p : Nat), p ≤ f → p ≤ g → ancestorsGo f p = ancestorsGo g p := by
  intro f
  induction f with
  | zero =>
    intro g p h1 h2
    have hp : p = 0 := by omega
    subst hp
    cases g with
    | zero => rfl
    | succ g => simp [ancestorsGo]
  | succ f ih =>
    intro g p h1 h2
    by_cases hp : p ≤ 1
    · cases g with
      | zero =>
        have : p = 0 := by omega
        subst this
        simp [ancestorsGo]
      | succ g => simp [ancestorsGo, hp]
    · cases g with
      | zero => omega
      | succ g =>
        rw [ancestorsGo, ancestorsGo]
        simp only [if_neg hp]
        rw [ih g (p / 2) (by omega) (by omega)]

theorem ancestors_mem_pos :
    ∀ (f p a : Nat), a ∈ ancestorsGo f p → 1 ≤ a := by
  intro f
  induction f with
  | zero => intro p a h; simp [ancestorsGo] at h
  | succ f ih =>
    intro p a h
    rw [ancestorsGo] at h
    by_cases hp : p ≤ 1
    · simp [hp] at h
    · simp only [if_neg hp] at h
      rcases List.mem_cons.mp h with h | h
      · omega
      · exact ih (p / 2) a h

theorem ancestors_low (p : Nat) (hp : p ≤ 1) : ancestors p = [] := by
  rcases Nat.le_one_iff_eq_zero_or_eq_one.mp hp with h | h <;> subst h <;> rfl

theorem ancestors_node (p : Nat) (hp : 2 ≤ p) :
    ancestors p = (p / 2) :: ancestors (p / 2) := by
  rw [ancestors,
    ancestorsGo_congr p ((p - 1) + 1) p (le_refl _) (by omega), ancestorsGo]
  simp only [if_neg (show ¬ p ≤ 1 by omega)]
  rw [ancestorsGo_congr (p - 1) (p / 2) (p / 2) (by omega) (le_refl _)]
  rfl

theorem ancestors_chain :
    ∀ (p a : Nat), a ∈ ancestors p → ancestors a ⊆ ancestors p := by
  intro p
  induction p using Nat.strong_induction_on with
  | _ p ih =>
    intro a ha
    by_cases hp : p ≤ 1
    · rw [ancestors_low p hp] at ha
      simp at ha
    · rw [ancestors_node p (by omega)] at ha ⊢
      rcases List.mem_cons.mp ha with h | h
      · subst h
        exact fun x hx => List.mem_cons_of_mem _ hx
      · intro x hx
        exact List.mem_cons_of_mem _ (ih (p / 2) (by omega) a h hx)

theorem mem_ancestors_left (p : Nat) (hp : 1 ≤ p) : p ∈ ancestors (p * 2) := by
  rw [ancestors_node (p * 2) (by omega)]
  have e : p * 2 / 2 = p := by omega
  rw [e]
  exact List.mem_cons_self _ _

theorem mem_ancestors_right (p : Nat) (hp : 1 ≤ p) :
    p ∈ ancestors (p * 2 + 1) := by
  rw [ancestors_node (p * 2 + 1) (by omega)]
  have e : (p * 2 + 1) / 2 = p := by omega
  rw [e]
  exact List.mem_cons_self _ _

/-! ### Ranges and ancestor structure of the decomposition nodes -/

theorem nodesGo_range :
    ∀ (fuel cl cr p : Nat), cl ≤ cr →
      ∀ x ∈ nodesGo fuel cl cr p, cl ≤ x.2.1 ∧ x.2.1 ≤ x.2.2 ∧ x.2.2 ≤ cr := by
  intro fuel
  induction fuel with
  | zero =>
    intro cl cr p hclcr x hx
    by_cases hcr : cr ≤ cl
    · rw [nodesGo_leaf 0 cl cr p hcr] at hx
      simp at hx
      subst hx
      simp
      omega
    · rw [nodesGo] at hx
      simp [hcr] at hx
  | succ fuel ih =>
    intro cl cr p hclcr x hx
    by_cases hcr : cr ≤ cl
    · rw [nodesGo_leaf _ cl cr p hcr] at hx
      simp at hx
      subst hx
      simp
      omega
    · rw [nodesGo] at hx
      simp only [if_neg hcr] at hx
      rcases List.mem_cons.mp hx with h | h
      · subst h
        simp
        omega
      · rcases List.mem_append.mp h with h | h
        · have := ih cl (cl + (cr - cl) / 2) (p * 2) (by omega) x h
          omega
        · have := ih (cl + (cr - cl) / 2 + 1) cr (p * 2 + 1) (by omega) x h
          omega

theorem nodesGo_anc :
    ∀ (fuel cl cr p : Nat), 1 ≤ p →
      ∀ x ∈ nodesGo fuel cl cr p, x.1 = p ∨ p ∈ ancestors x.1 := by
  intro fuel
  induction fuel with
  | zero =>
    intro cl cr p hp x hx
    by_cases hcr : cr ≤ cl
    · rw [nodesGo_leaf 0 cl cr p hcr] at hx
      simp at hx
      subst hx
      exact Or.inl rfl
    · rw [nodesGo] at hx
      simp [hcr] at hx
  | succ fuel ih =>
    intro cl cr p hp x hx
    by_cases hcr : cr ≤ cl
    · rw [nodesGo_leaf _ cl cr p hcr] at hx
      simp at hx
      subst hx
      exact Or.inl rfl
    · rw [nodesGo] at hx
      simp only [if_neg hcr] at hx
      rcases List.mem_cons.mp hx with h | h
      · subst h
        exact Or.inl rfl
      · rcases List.mem_append.mp h with h | h
        · rcases ih cl (cl + (cr - cl) / 2) (p * 2) (by omega) x h with h2 | h2
          · exact Or.inr (h2 ▸ mem_ancestors_left p hp)
          · exact Or.inr (ancestors_chain x.1 (p * 2) h2 (mem_ancestors_left p hp))
        · rcases ih (cl + (cr - cl) / 2 + 1) cr (p * 2 + 1) (by omega) x h with h2 | h2
          · exact Or.inr (h2 ▸ mem_ancestors_right p hp)
          · exact Or.inr (ancestors_chain x.1 (p * 2 + 1) h2
              (mem_ancestors_right p hp))

/-- For a decomposition node all of whose ancestors (inside the considered
subtree) carry a zero mark, the stored aggregate equals the sum of the
logical values over the node's range. -/
theorem nodes_sum (t : RangeSumSegmentTree) :
    ∀ (fuel cl cr p : Nat), cr - cl ≤ fuel → cl ≤ cr → 1 ≤ p → inv t cl cr p →
      ∀ x ∈ nodesGo fuel cl cr p,
        (∀ a ∈ ancestors x.1, p ≤ a → t.mark a = 0) →
        sumIn x.2.1 x.2.2 cl (elems t cl cr p) = t.arr x.1 := by
  intro fuel
  induction fuel with
  | zero =>
    intro cl cr p h1 hclcr hp hinv x hx hanc
    rw [nodesGo_leaf 0 cl cr p (by omega)] at hx
    simp at hx
    subst hx
    show sumIn cl cr cl (elems t cl cr p) = t.arr p
    rw [sumIn_full _ _ _ cl (le_refl _)
      (by rw [elems_length_of_le t p hclcr]; omega)]
    exact (inv_sum t (cr - cl) cl cr p (le_refl _) hclcr hinv).symm
  | succ fuel ih =>
    intro cl cr p h1 hclcr hp hinv x hx hanc
    by_cases hcr : cr ≤ cl
    · rw [nodesGo_leaf _ cl cr p hcr] at hx
      simp at hx
      subst hx
      show sumIn cl cr cl (elems t cl cr p) = t.arr p
      rw [sumIn_full _ _ _ cl (le_refl _)
        (by rw [elems_length_of_le t p hclcr]; omega)]
      exact (inv_sum t (cr - cl) cl cr p (le_refl _) hclcr hinv).symm
    · have hlt : cl < cr := by omega
      rw [nodesGo] at hx
      simp only [if_neg hcr] at hx
      rcases List.mem_cons.mp hx with hx | hx
      · subst hx
        show sumIn cl cr cl (elems t cl cr p) = t.arr p
        rw [sumIn_full _ _ _ cl (le_refl _)
          (by rw [elems_length_of_le t p hclcr]; omega)]
        exact (inv_sum t (cr - cl) cl cr p (le_refl _) hclcr hinv).symm
      · have hmp : t.mark p = 0 := by
          rcases List.mem_append.mp hx with h | h
          · rcases nodesGo_anc fuel cl (cl + (cr - cl) / 2) (p * 2) (by omega) x h
              with h2 | h2
            · exact hanc p (h2 ▸ mem_ancestors_left p hp) (le_refl p)
            · exact hanc p (ancestors_chain x.1 (p * 2) h2
                (mem_ancestors_left p hp)) (le_refl p)
          · rcases nodesGo_anc fuel (cl + (cr - cl) / 2 + 1) cr (p * 2 + 1)
              (by omega) x h with h2 | h2
            · exact hanc p (h2 ▸ mem_ancestors_right p hp) (le_refl p)
            · exact hanc p (ancestors_chain x.1 (p * 2 + 1) h2
                (mem_ancestors_right p hp)) (le_refl p)
        have hinvN := (inv_node t p hlt).mp hinv
        rw [elems_node t p hlt, hmp, map_add_zero, sumIn_append,
          elems_length_of_le t (p * 2) (show cl ≤ cl + (cr - cl) / 2 by omega)]
        have ee : cl + (cl + (cr - cl) / 2 + 1 - cl) = cl + (cr - cl) / 2 + 1 := by
          omega
        rw [ee]
        rcases List.mem_append.mp hx with h | h
        · have hrange := nodesGo_range fuel cl (cl + (cr - cl) / 2) (p * 2)
            (by omega) x h
          rw [sumIn_zero_right x.2.1 x.2.2 _ (cl + (cr - cl) / 2 + 1) (by omega),
            ih cl (cl + (cr - cl) / 2) (p * 2) (by omega) (by omega) (by omega)
              hinvN.2.1 x h (fun a ha hpa => hanc a ha (by omega))]
          ring
        · have hrange := nodesGo_range fuel (cl + (cr - cl) / 2 + 1) cr (p * 2 + 1)
            (by omega) x h
          rw [sumIn_zero_left x.2.1 x.2.2 _ cl
            (by rw [elems_length_of_le t (p * 2)
              (show cl ≤ cl + (cr - cl) / 2 by omega)]; omega),
            ih (cl + (cr - cl) / 2 + 1) cr (p * 2 + 1) (by omega) (by omega)
              (by omega) hinvN.2.2 x h (fun a ha hpa => hanc a ha (by omega))]
          ring

/-! ### Position bounds for the decomposition -/

theorem nodesGo_bound :
    ∀ (fuel cl cr p : Nat), cr - cl ≤ fuel → cl ≤ cr →
      ∀ x ∈ nodesGo fuel cl cr p,
        (x.1 + 1) * 2 ^ (Nat.clog 2 (x.2.2 + 1 - x.2.1)) ≤
          (p + 1) * 2 ^ (Nat.clog 2 (cr + 1 - cl)) := by
  intro fuel
  induction fuel with
  | zero =>
    intro cl cr p h1 hclcr x hx
    rw [nodesGo_leaf 0 cl cr p (by omega)] at hx
    simp at hx
    subst hx
    exact le_refl _
  | succ fuel ih =>
    intro cl cr p h1 hclcr x hx
    by_cases hcr : cr ≤ cl
    · rw [nodesGo_leaf _ cl cr p hcr] at hx
      simp at hx
      subst hx
      exact le_refl _
    · have hlt : cl < cr := by omega
      rw [nodesGo] at hx
      simp only [if_neg hcr] at hx
      have hs2 : 2 ≤ cr + 1 - cl := by omega
      have hrec : Nat.clog 2 (cr + 1 - cl) =
          Nat.clog 2 ((cr + 1 - cl + 1) / 2) + 1 := by
        rw [Nat.clog_of_two_le (by norm_num) hs2]
        congr 2
      rcases List.mem_cons.mp hx with h | h
      · subst h
        exact le_refl _
      · rcases List.mem_append.mp h with h | h
        · have hIH := ih cl (cl + (cr - cl) / 2) (p * 2) (by omega) (by omega) x h
          have hsL : cl + (cr - cl) / 2 + 1 - cl = (cr + 1 - cl + 1) / 2 := by omega
          calc (x.1 + 1) * 2 ^ (Nat.clog 2 (x.2.2 + 1 - x.2.1))
              ≤ (p * 2 + 1) * 2 ^ (Nat.clog 2 (cl + (cr - cl) / 2 + 1 - cl)) := hIH
            _ ≤ (p * 2 + 2) * 2 ^ (Nat.clog 2 (cl + (cr - cl) / 2 + 1 - cl)) :=
                Nat.mul_le_mul_right _ (by omega)
            _ = (p + 1) * 2 ^ (Nat.clog 2 (cl + (cr - cl) / 2 + 1 - cl) + 1) := by
                rw [pow_succ]; ring
            _ = (p + 1) * 2 ^ (Nat.clog 2 (cr + 1 - cl)) := by rw [hsL, ← hrec]
        · have hIH := ih (cl + (cr - cl) / 2 + 1) cr (p * 2 + 1) (by omega)
            (by omega) x h
          have hm : Nat.clog 2 (cr + 1 - (cl + (cr - cl) / 2 + 1)) ≤
              Nat.clog 2 ((cr + 1 - cl + 1) / 2) :=
            Nat.clog_mono_right 2 (by omega)
          calc (x.1 + 1) * 2 ^ (Nat.clog 2 (x.2.2 + 1 - x.2.1))
              ≤ (p * 2 + 1 + 1) * 2 ^ (Nat.clog 2 (cr + 1 - (cl + (cr - cl) / 2 + 1))) :=
                hIH
            _ ≤ (p * 2 + 2) * 2 ^ (Nat.clog 2 ((cr + 1 - cl + 1) / 2)) :=
                Nat.mul_le_mul (by omega) (Nat.pow_le_pow_right (by norm_num) hm)
            _ = (p + 1) * 2 ^ (Nat.clog 2 ((cr + 1 - cl + 1) / 2) + 1) := by
                rw [pow_succ]; ring
            _ = (p + 1) * 2 ^ (Nat.clog 2 (cr + 1 - cl)) := by rw [← hrec]

/-! ### The size-computation loop -/

theorem calcLoopGo_some :
    ∀ (fuel cur h : Nat), 1 ≤ cur → cur ≤ fuel →
      calcLoopGo fuel cur h = some (h + Nat.clog 2 cur) := by
  intro fuel
  induction fuel with
  | zero => intro cur h h1 h2; omega
  | succ fuel ih =>
    intro cur h h1 h2
    rw [calcLoopGo]
    by_cases hc : cur = 1
    · subst hc
      simp [Nat.clog_one_right]
    · rw [if_neg hc, ih ((cur + 1) / 2) (h + 1) (by omega) (by omega)]
      congr 1
      have hrec : Nat.clog 2 cur = Nat.clog 2 ((cur + 1) / 2) + 1 := by
        rw [Nat.clog_of_two_le (by norm_num) (by omega)]
        congr 2
      omega

theorem calcLoopGo_zero_cur : ∀ (fuel h : Nat), calcLoopGo fuel 0 h = none := by
  intro fuel
  induction fuel with
  | zero => intro h; rfl
  | succ fuel ih =>
    intro h
    rw [calcLoopGo, if_neg (by omega)]
    exact ih (h + 1)

theorem calculate_length_closed (n : Nat) (hn : 1 ≤ n) :
    calculate_length n = 2 ^ (Nat.clog 2 n + 1) := by
  rw [calculate_length, calcLoopGo_some (n + 1) n 1 hn (by omega)]
  simp [Option.getD]
  rw [Nat.add_comm]

/-! ### Wrapper-level summaries -/

theorem update_main (t : RangeSumSegmentTree) (i j : Nat) (d : Int) (n : Nat)
    (hlen : t.len = n) (h1n : 1 ≤ n) (hinv : inv t 1 n 1) :
    (update t i j d).len = n ∧
    inv (update t i j d) 1 n 1 ∧
    elems (update t i j d) 1 n 1 = addOn i j d 1 (elems t 1 n 1) := by
  subst hlen
  have h := update_go_main i j d t.len t 1 t.len 1 (by omega) (by omega) h1n hinv
  exact ⟨(update_shape t i j d).1, h.1, h.2⟩

theorem query_main (t : RangeSumSegmentTree) (i j n : Nat)
    (hlen : t.len = n) (h1n : 1 ≤ n) (hinv : inv t 1 n 1) :
    (query t i j).1 = sumIn i j 1 (elems t 1 n 1) ∧
    (query t i j).2.len = n ∧
    inv (query t i j).2 1 n 1 ∧
    elems (query t i j).2 1 n 1 = elems t 1 n 1 := by
  subst hlen
  have h := query_go_main i j t.len t 1 t.len 1 (by omega) (by omega) h1n hinv
  exact ⟨h.1, (query_shape t i j).1, h.2.1, h.2.2⟩

/-! ### The claims -/

/-- Claim C1 (update additivity): for every tree built from a sequence of
length `n ≥ 1` and reachable through contract-respecting calls, every
in-bounds range `[i, j]`, every delta `d` and every `k` in `[1, n]`, calling
`update(i, j, d)` changes the value of `query(k, k)` by exactly `d` when
`i ≤ k ≤ j` and leaves it unchanged otherwise. -/
theorem update_additivity (v : List Int) (t : RangeSumSegmentTree)
    (i j k : Nat) (d : Int) (hn : 1 ≤ v.length) (ht : Reachable v t)
    (hi : 1 ≤ i) (hij : i ≤ j) (hj : j ≤ t.len)
    (hk : 1 ≤ k) (hk2 : k ≤ t.len) :
    (query (update t i j d) k k).1 =
      (query t k k).1 + (if i ≤ k ∧ k ≤ j then d else 0) := by
  obtain ⟨hlen, hcap, hinv⟩ := reach_basic v t hn ht
  have h1len : 1 ≤ t.len := by omega
  have m := update_main t i j d t.len rfl h1len hinv
  have qU := query_main (update t i j d) k k t.len m.1 h1len m.2.1
  have qT := query_main t k k t.len rfl h1len hinv
  rw [qU.1, qT.1, m.2.2,
    sumIn_addOn_pt i j d k _ 1 hk (by rw [elems_length_of_le t 1 h1len]; omega)]

/-- Witness for C1 at `v = [1,2,3]`, `update(2,3,5)`, `k = 2`. -/
theorem update_additivity_witness :
    (query (update (from_vec [1, 2, 3]) 2 3 5) 2 2).1 =
      (query (from_vec [1, 2, 3]) 2 2).1 +
        (if 2 ≤ 2 ∧ 2 ≤ 3 then (5 : Int) else 0) :=
  update_additivity [1, 2, 3] (from_vec [1, 2, 3]) 2 3 2 5 (by decide)
    Reachable.base (by decide) (by decide) (by decide) (by decide) (by decide)

/-- Claim C2 (corrected, leaf-mark invariant): immediately after `from_vec`
every position (in particular every leaf of the decomposition) carries a zero
mark.  The original claim, that leaf marks stay zero in every reachable
state, is false: `update_rec` marks a fully-contained node whenever the
update range satisfies `l < r` (the condition is on the target range, not on
the node's own range), and `push_down` transfers marks to children
unconditionally, so leaves acquire nonzero marks; see the counterexample. -/
theorem leaf_marks_zero_after_build (v : List Int) :
    ∀ x ∈ nodesList 1 (from_vec v).len 1, x.2.1 = x.2.2 →
      (from_vec v).mark x.1 = 0 := by
  intro x hx hleaf
  exact from_vec_mark v x.1

/-- Witness for the amended C2: the leaf `(2, [1,1])` of a freshly built
2-element tree has a zero mark. -/
theorem leaf_marks_zero_after_build_witness :
    ((2, 1, 1) : Nat × Nat × Nat) ∈ nodesList 1 (from_vec [5, 7]).len 1 ∧
    (from_vec [5, 7]).mark 2 = 0 :=
  ⟨by decide, leaf_marks_zero_after_build [5, 7] (2, 1, 1) (by decide) (by decide)⟩

/-- Counterexample to C2 as stated: after the contract-respecting call
`update(2, 3, 1)` on the tree built from `[0,0,0]`, the reachable state has
mark `1` at position `3`, which is a leaf of the decomposition (it covers
`[3,3]`). -/
theorem leaf_mark_counterexample :
    Reachable [0, 0, 0] (update (from_vec [0, 0, 0]) 2 3 1) ∧
    ((3, 3, 3) : Nat × Nat × Nat) ∈
      nodesList 1 (update (from_vec [0, 0, 0]) 2 3 1).len 1 ∧
    (update (from_vec [0, 0, 0]) 2 3 1).mark 3 = 1 :=
  ⟨Reachable.update_step 2 3 1 Reachable.base (by decide) (by decide) (by decide),
    by decide, by decide⟩

/-- Claim C3 (node accuracy): in every reachable state, a node `p` covering
`[cl, cr]` none of whose proper ancestors carries a pending mark stores in
`arr[p]` exactly the current true sum of the logical array over `[cl, cr]`
(per the claim's parenthetical, only nodes below a marked node may be stale —
a node is never made stale by its own mark, which is already folded into its
aggregate). -/
theorem node_accuracy (v : List Int) (t : RangeSumSegmentTree)
    (hn : 1 ≤ v.length) (ht : Reachable v t) :
    ∀ x ∈ nodesList 1 t.len 1,
      (∀ a ∈ ancestors x.1, t.mark a = 0) →
      t.arr x.1 = sumIn x.2.1 x.2.2 1 (elems t 1 t.len 1) := by
  obtain ⟨hlen, hcap, hinv⟩ := reach_basic v t hn ht
  have h1len : 1 ≤ t.len := by omega
  intro x hx hanc
  exact (nodes_sum t (t.len - 1) 1 t.len 1 (le_refl _) h1len (le_refl _) hinv x
    hx (fun a ha _ => hanc a ha)).symm

/-- Witness for C3 at the root of the tree built from `[1,2]`. -/
theorem node_accuracy_witness :
    ((1, 1, 2) : Nat × Nat × Nat) ∈ nodesList 1 (from_vec [1, 2]).len 1 ∧
    (from_vec [1, 2]).arr 1 =
      sumIn 1 2 1 (elems (from_vec [1, 2]) 1 (from_vec [1, 2]).len 1) :=
  ⟨by decide, node_accuracy [1, 2] (from_vec [1, 2]) (by decide) Reachable.base
    (1, 1, 2) (by decide) (by decide)⟩

/-- Claim C4 (build correctness): immediately after `from_vec v` with
`n = v.length ≥ 1` and before any update, `query(1, n)` returns the sum of
`v` and `query(k, k)` returns `v[k-1]` for every `k` in `[1, n]`. -/
theorem build_correctness (v : List Int) (hn : 1 ≤ v.length) :
    (query (from_vec v) 1 v.length).1 = v.sum ∧
    (∀ k, 1 ≤ k → k ≤ v.length →
      (query (from_vec v) k k).1 = v.getD (k - 1) 0) := by
  have hinv := from_vec_inv v hn
  have hlen := from_vec_len v
  have hel := from_vec_elems v hn
  constructor
  · have hQ := query_main (from_vec v) 1 v.length v.length hlen hn
      (by exact hinv)
    rw [hQ.1, hel, sumIn_full 1 v.length v 1 (le_refl _) (by omega)]
  · intro k hk hk2
    have hQ := query_main (from_vec v) k k v.length hlen hn (by exact hinv)
    rw [hQ.1, hel, sumIn_getD k v 1 hk (by omega)]

/-- Witness for C4 at `v = [2,4,6]`. -/
theorem build_correctness_witness :
    (query (from_vec [2, 4, 6]) 1 (List.length [2, 4, 6])).1 =
      List.sum [2, 4, 6] ∧
    (query (from_vec [2, 4, 6]) 2 2).1 = List.getD [2, 4, 6] (2 - 1) 0 :=
  ⟨(build_correctness [2, 4, 6] (by decide)).1,
    (build_correctness [2, 4, 6] (by decide)).2 2 (by decide) (by decide)⟩

/-- Claim C5 (query idempotence): on every reachable state, calling
`query(i, j)` twice in a row with no intervening update returns the same
value both times, even though the first call mutates `arr`/`mark` through
push-downs. -/
theorem query_idempotent (v : List Int) (t : RangeSumSegmentTree) (i j : Nat)
    (hn : 1 ≤ v.length) (ht : Reachable v t) (hi : 1 ≤ i) (hij : i ≤ j)
    (hj : j ≤ t.len) :
    (query (query t i j).2 i j).1 = (query t i j).1 := by
  obtain ⟨hlen, hcap, hinv⟩ := reach_basic v t hn ht
  have h1len : 1 ≤ t.len := by omega
  have qT := query_main t i j t.len rfl h1len hinv
  have qQ := query_main (query t i j).2 i j t.len qT.2.1 h1len qT.2.2.1
  rw [qQ.1, qT.2.2.2, ← qT.1]

/-- Witness for C5 at `v = [1,2,3,4]`, `query(2,3)`. -/
theorem query_idempotent_witness :
    (query (query (from_vec [1, 2, 3, 4]) 2 3).2 2 3).1 =
      (query (from_vec [1, 2, 3, 4]) 2 3).1 :=
  query_idempotent [1, 2, 3, 4] (from_vec [1, 2, 3, 4]) 2 3 (by decide)
    Reachable.base (by decide) (by decide) (by decide)

/-- Claim C6 (commutativity of updates): on every reachable state, performing
`update(i1, j1, d1)` then `update(i2, j2, d2)` (both ranges in bounds,
possibly overlapping) yields the same result for every subsequent
`query(i, j)` as performing the two updates in the reverse order. -/
theorem update_comm (v : List Int) (t : RangeSumSegmentTree)
    (i1 j1 i2 j2 i j : Nat) (d1 d2 : Int)
    (hn : 1 ≤ v.length) (ht : Reachable v t)
    (h11 : 1 ≤ i1) (h12 : i1 ≤ j1) (h13 : j1 ≤ t.len)
    (h21 : 1 ≤ i2) (h22 : i2 ≤ j2) (h23 : j2 ≤ t.len)
    (hqi : 1 ≤ i) (hqij : i ≤ j) (hqj : j ≤ t.len) :
    (query (update (update t i1 j1 d1) i2 j2 d2) i j).1 =
      (query (update (update t i2 j2 d2) i1 j1 d1) i j).1 := by
  obtain ⟨hlen, hcap, hinv⟩ := reach_basic v t hn ht
  have h1len : 1 ≤ t.len := by omega
  have m1 := update_main t i1 j1 d1 t.len rfl h1len hinv
  have m12 := update_main (update t i1 j1 d1) i2 j2 d2 t.len m1.1 h1len m1.2.1
  have m2 := update_main t i2 j2 d2 t.len rfl h1len hinv
  have m21 := update_main (update t i2 j2 d2) i1 j1 d1 t.len m2.1 h1len m2.2.1
  have q12 := query_main (update (update t i1 j1 d1) i2 j2 d2) i j t.len
    m12.1 h1len m12.2.1
  have q21 := query_main (update (update t i2 j2 d2) i1 j1 d1) i j t.len
    m21.1 h1len m21.2.1
  rw [q12.1, q21.1, m12.2.2, m21.2.2, m1.2.2, m2.2.2, addOn_comm]

/-- Witness for C6 at `v = [1,2,3]` with the overlapping updates
`update(1,2,5)` and `update(2,3,-1)` and the query `query(1,3)`. -/
theorem update_comm_witness :
    (query (update (update (from_vec [1, 2, 3]) 1 2 5) 2 3 (-1)) 1 3).1 =
      (query (update (update (from_vec [1, 2, 3]) 2 3 (-1)) 1 2 5) 1 3).1 :=
  update_comm [1, 2, 3] (from_vec [1, 2, 3]) 1 2 2 3 1 3 5 (-1) (by decide)
    Reachable.base (by decide) (by decide) (by decide) (by decide) (by decide)
    (by decide) (by decide) (by decide) (by decide)

/-- Claim C7 (capacity formula and in-bounds addressing): for every `n ≥ 1`,
`calculate_length n = 2^(⌈log₂ n⌉ + 1)` (so `calculate_length 1 = 2`), and
every node `(q, a, b)` of the recursive decomposition of `[1, n]` satisfies
`q < calculate_length n`, and for inner nodes also
`2q + 1 < calculate_length n`.  Every index into `arr`/`mark` used by
`build_rec`, `update_rec`, `query_rec` and `push_down` is a decomposition
node position or a child `2q`/`2q+1` of an inner decomposition node, so all
accesses stay below the allocated capacity. -/
theorem capacity_bound (n : Nat) (hn : 1 ≤ n) :
    calculate_length n = 2 ^ (Nat.clog 2 n + 1) ∧
    ∀ x ∈ nodesList 1 n 1, x.1 < calculate_length n ∧
      (x.2.1 < x.2.2 → x.1 * 2 + 1 < calculate_length n) := by
  refine ⟨calculate_length_closed n hn, ?_⟩
  intro x hx
  have hb := nodesGo_bound (n - 1) 1 n 1 (le_refl _) hn x hx
  have hrange := nodesGo_range (n - 1) 1 n 1 hn x hx
  rw [calculate_length_closed n hn]
  have e1 : n + 1 - 1 = n := by omega
  rw [e1] at hb
  have cap2 : (2 : Nat) * 2 ^ (Nat.clog 2 n) = 2 ^ (Nat.clog 2 n + 1) := by
    rw [pow_succ]
    ring
  constructor
  · have hpos : 0 < 2 ^ (Nat.clog 2 (x.2.2 + 1 - x.2.1)) :=
      pow_pos (by norm_num) _
    have h1 : x.1 + 1 ≤ (x.1 + 1) * 2 ^ (Nat.clog 2 (x.2.2 + 1 - x.2.1)) :=
      Nat.le_mul_of_pos_right _ hpos
    have h2 : x.1 + 1 ≤ 2 * 2 ^ (Nat.clog 2 n) := le_trans h1 hb
    omega
  · intro hxlt
    have hclog : 1 ≤ Nat.clog 2 (x.2.2 + 1 - x.2.1) :=
      Nat.clog_pos (by norm_num) (by omega)
    have h2 : 2 ≤ 2 ^ (Nat.clog 2 (x.2.2 + 1 - x.2.1)) := by
      calc (2 : Nat) = 2 ^ 1 := by norm_num
        _ ≤ 2 ^ (Nat.clog 2 (x.2.2 + 1 - x.2.1)) :=
          Nat.pow_le_pow_right (by norm_num) hclog
    have h3 : (x.1 + 1) * 2 ≤ (x.1 + 1) * 2 ^ (Nat.clog 2 (x.2.2 + 1 - x.2.1)) :=
      Nat.mul_le_mul_left _ h2
    have h4 : (x.1 + 1) * 2 ≤ 2 * 2 ^ (Nat.clog 2 n) := le_trans h3 hb
    omega

/-- Witness for C7 at `n = 6` and the inner decomposition node `(2, [1,3])`. -/
theorem capacity_bound_witness :
    calculate_length 6 = 2 ^ (Nat.clog 2 6 + 1) ∧
    (2 < calculate_length 6 ∧ (1 < 3 → 2 * 2 + 1 < calculate_length 6)) :=
  ⟨(capacity_bound 6 (by decide)).1,
    (capacity_bound 6 (by decide)).2 (2, 1, 3) (by decide)⟩

/-- Claim C8 (push-down contract): for a node `p ≥ 1` whose range has size
`s ≥ 2`, `push_down(p, s)` adds `mark[p]` to the marks of both children
(accumulating), adds `mark[p] · ⌈s/2⌉` to `arr[2p]` and `mark[p] · ⌊s/2⌋`
to `arr[2p+1]` (the left-biased split), resets `mark[p]` to `0`, and
modifies no other entry of `arr` or `mark`. -/
theorem push_down_contract (t : RangeSumSegmentTree) (p s : Nat)
    (hp : 1 ≤ p) (hs : 2 ≤ s) :
    (push_down t p (s : Int)).mark (p * 2) = t.mark (p * 2) + t.mark p ∧
    (push_down t p (s : Int)).mark (p * 2 + 1) = t.mark (p * 2 + 1) + t.mark p ∧
    (push_down t p (s : Int)).arr (p * 2) =
      t.arr (p * 2) + t.mark p * (((s + 1) / 2 : Nat) : Int) ∧
    (push_down t p (s : Int)).arr (p * 2 + 1) =
      t.arr (p * 2 + 1) + t.mark p * ((s / 2 : Nat) : Int) ∧
    (push_down t p (s : Int)).mark p = 0 ∧
    (∀ q, q ≠ p * 2 → q ≠ p * 2 + 1 → (push_down t p (s : Int)).arr q = t.arr q) ∧
    (∀ q, q ≠ p → q ≠ p * 2 → q ≠ p * 2 + 1 →
      (push_down t p (s : Int)).mark q = t.mark q) := by
  have c1 : ((s : Int) + 1) / 2 = (((s + 1) / 2 : Nat) : Int) := by omega
  have c2 : (s : Int) / 2 = ((s / 2 : Nat) : Int) := by omega
  refine ⟨push_down_mark_left t p _ hp, push_down_mark_right t p _ hp, ?_, ?_,
    push_down_mark_self t p _, fun q h2 h3 => push_down_arr_frame t p _ h2 h3,
    fun q h1 h2 h3 => push_down_mark_frame t p _ h1 h2 h3⟩
  · rw [push_down_arr_left t p _ hp, c1]
  · rw [push_down_arr_right t p _ hp, c2]

/-- Witness for C8 at the root of the tree built from `[1,2]`, range size 2. -/
theorem push_down_contract_witness :
    (push_down (from_vec [1, 2]) 1 ((2 : Nat) : Int)).mark 2 =
      (from_vec [1, 2]).mark 2 + (from_vec [1, 2]).mark 1 ∧
    (push_down (from_vec [1, 2]) 1 ((2 : Nat) : Int)).mark 1 = 0 :=
  ⟨(push_down_contract (from_vec [1, 2]) 1 2 (by decide) (by decide)).1,
    (push_down_contract (from_vec [1, 2]) 1 2 (by decide) (by decide)).2.2.2.2.1⟩

/-- Claim C9 (out-of-range queries are clamped): on every reachable state of
a tree built from `n ≥ 1` values, `query(i, j)` for arbitrary unsigned `i`,
`j` (including `i = 0`, `j > length` and `i > j`) returns the sum of the
current logical elements with index in `[i, j] ∩ [1, length]` (`sumIn`
restricts precisely to this intersection, yielding `0` when it is empty);
in particular `query(0, j) = query(1, j)`.  No out-of-bounds access occurs:
the positions touched are the decomposition nodes, which depend only on
`length` and are bounded by the allocated capacity (claim C7). -/
theorem query_clamp (v : List Int) (t : RangeSumSegmentTree) (i j : Nat)
    (hn : 1 ≤ v.length) (ht : Reachable v t) :
    (query t i j).1 = sumIn i j 1 (elems t 1 t.len 1) ∧
    (query t 0 j).1 = (query t 1 j).1 := by
  obtain ⟨hlen, hcap, hinv⟩ := reach_basic v t hn ht
  have h1len : 1 ≤ t.len := by omega
  have q := query_main t i j t.len rfl h1len hinv
  have q0 := query_main t 0 j t.len rfl h1len hinv
  have q1 := query_main t 1 j t.len rfl h1len hinv
  refine ⟨q.1, ?_⟩
  rw [q0.1, q1.1, sumIn_start_zero j _ 1 (le_refl _)]

/-- Witness for C9 at `v = [1,2]` with the out-of-range query `query(0, 5)`. -/
theorem query_clamp_witness :
    (query (from_vec [1, 2]) 0 5).1 =
      sumIn 0 5 1 (elems (from_vec [1, 2]) 1 (from_vec [1, 2]).len 1) ∧
    (query (from_vec [1, 2]) 0 5).1 = (query (from_vec [1, 2]) 1 5).1 :=
  query_clamp [1, 2] (from_vec [1, 2]) 0 5 (by decide) Reachable.base

/-- Claim C10 (construction terminates): for every `n ≥ 1` the ceil-halving
loop of `calculate_length` terminates — the fuelled model reaches `some`
within `n + 1` iterations, returning the loop counter `⌈log₂ n⌉ + 1` — and
hence `from_vec` on a nonempty input terminates and returns a tree.  The
precondition `n ≥ 1` is necessary: for `n = 0` the loop body maps `cur = 0`
to `(0 + 1) / 2 = 0` forever, so the fuelled model returns `none` for every
fuel, i.e. the source loop diverges. -/
theorem construction_terminates (n : Nat) (hn : 1 ≤ n) :
    calcLoopGo (n + 1) n 1 = some (Nat.clog 2 n + 1) ∧
    (∀ fuel : Nat, calcLoopGo fuel 0 1 = none) := by
  constructor
  · rw [calcLoopGo_some (n + 1) n 1 hn (by omega)]
    congr 1
    omega
  · exact fun fuel => calcLoopGo_zero_cur fuel 1

/-- Witness for C10 at `n = 5` (and fuel 17 for the divergent `n = 0` case). -/
theorem construction_terminates_witness :
    calcLoopGo 6 5 1 = some (Nat.clog 2 5 + 1) ∧ calcLoopGo 17 0 1 = none :=
  ⟨(construction_terminates 5 (by decide)).1,
    (construction_terminates 5 (by decide)).2 17⟩

end SegTreeSum
